import Mathlib

/-!
Verification of the multidimensional matrix storage engine (dimension codec,
storage backends, sampler DSL, grid growth policy, reduce, bit-sequence wire
format) against its specification.

Conventions of the embedding:
* Go `int` is modelled as `Int`.  Go `%` is truncated remainder (sign of the
  dividend), modelled by `Int.tmod`; Go `/` truncates toward zero, modelled by
  `Int.tdiv`.  Division by zero panics in Go; it only arises for axis lengths
  equal to zero, which the constructors reject, so `Int.tmod _ 0 = _` never
  matters for constructed shapes.
* Go `uint64` bucket values are modelled as `Nat` (all operations used keep
  values below `2 ^ 64`, and masking uses explicit 64-bit complements).
* A Go `panic` is modelled by `Option`/`Except` result types (`none` /
  `.error` = panic).
* Go loops are modelled by structurally recursive functions; a loop whose
  counter runs from `i` up to a bound `b` recurses on the remaining count
  `b - i` so that all definitions compute by `decide`/`rfl`.
-/

namespace Dims

/-- Product of a list of lengths, as computed by the `Size` loop of the
N-dimensional implementation `dN` (`total := 1; total *= r[i]`). -/
def listProd (lengths : List Int) : Int :=
  lengths.foldl (fun total l => total * l) 1

/-- The accumulator loop of `dN.Index`: for each axis `i`,
`total += (offsets[i] % r[i]) * stride; stride *= r[i]`.  The mismatched case
(fewer offsets than lengths) would panic in Go and is never used. -/
def dnIndexLoop : List Int → List Int → Int → Int → Int
  | l :: ls, o :: os, stride, total =>
      dnIndexLoop ls os (stride * l) (total + (Int.tmod o l) * stride)
  | _, _, _, total => total

/-- `dN.Index`: row-major index of a coordinate vector, wrapping each offset
with Go `%` (truncated remainder) by its axis length. -/
def dnIndex (lengths offsets : List Int) : Int :=
  dnIndexLoop lengths offsets 1 0

/-- The loop of `dN.Offsets`: `dest[i] = (idx / stride) % r[i]` with
`stride` the product of lengths before axis `i`.  The Go code special-cases
axis 0 as `idx % r[0]`, which equals `(idx / 1) % r[0]` since `tdiv idx 1 =
idx`; the uniform form is used here. -/
def dnOffsetsLoop : List Int → Int → Int → List Int
  | [], _, _ => []
  | l :: ls, idx, stride =>
      (Int.tmod (Int.tdiv idx stride) l) :: dnOffsetsLoop ls idx (stride * l)

/-- `dN.Offsets`: coordinate vector of a flat index. -/
def dnOffsets (lengths : List Int) (idx : Int) : List Int :=
  dnOffsetsLoop lengths idx 1

/-- `D1.Index`: `x % r[0]`. -/
def d1Index (r0 o0 : Int) : Int := Int.tmod o0 r0

/-- `D1.Offsets`: `dest[0] = idx % w`. -/
def d1Offsets (r0 idx : Int) : Int := Int.tmod idx r0

/-- `D2.Index`: `(y * w) + x` with `x = offsets[0] % r[0]`,
`y = offsets[1] % r[1]`, `w = r[0]`. -/
def d2Index (r0 r1 o0 o1 : Int) : Int :=
  (Int.tmod o1 r1) * r0 + (Int.tmod o0 r0)

/-- `D2.Offsets`: `x = idx % w`, `y = (idx / w) % h`. -/
def d2Offsets (r0 r1 idx : Int) : Int × Int :=
  (Int.tmod idx r0, Int.tmod (Int.tdiv idx r0) r1)

/-- `D3.Index`: `(z * w * h) + (y * w) + x`. -/
def d3Index (r0 r1 r2 o0 o1 o2 : Int) : Int :=
  (Int.tmod o2 r2) * r0 * r1 + (Int.tmod o1 r1) * r0 + (Int.tmod o0 r0)

/-- `D3.Offsets`: `x = idx % w`, `y = (idx / w) % h`, `z = (idx / (w*h)) % d`. -/
def d3Offsets (r0 r1 r2 idx : Int) : Int × Int × Int :=
  (Int.tmod idx r0,
   Int.tmod (Int.tdiv idx r0) r1,
   Int.tmod (Int.tdiv idx (r0 * r1)) r2)

/-- `D4.Index`: `(e * w * h * d) + (z * w * h) + (y * w) + x`. -/
def d4Index (r0 r1 r2 r3 o0 o1 o2 o3 : Int) : Int :=
  (Int.tmod o3 r3) * r0 * r1 * r2 + (Int.tmod o2 r2) * r0 * r1 +
    (Int.tmod o1 r1) * r0 + (Int.tmod o0 r0)

/-- `D4.Offsets`. -/
def d4Offsets (r0 r1 r2 r3 idx : Int) : Int × Int × Int × Int :=
  (Int.tmod idx r0,
   Int.tmod (Int.tdiv idx r0) r1,
   Int.tmod (Int.tdiv idx (r0 * r1)) r2,
   Int.tmod (Int.tdiv idx (r0 * r1 * r2)) r3)

/-- Errors raised (as panics) by the dimensions constructor `New`. -/
inductive NewError where
  | zeroSize  : NewError
  | zeroDims  : NewError
  | limitDims : NewError
deriving DecidableEq, Repr

/-- The concrete dimension value returned by `New`: one of the specialised
types `D1`..`D4`, or the generic `dN` for five or more axes. -/
inductive GoD where
  | d1 : Int → GoD
  | d2 : Int → Int → GoD
  | d3 : Int → Int → Int → GoD
  | d4 : Int → Int → Int → Int → GoD
  | dn : List Int → GoD
deriving DecidableEq, Repr

/-- The `switch len(sizes)` dispatch at the end of `New`: specialised types
for 1–4 lengths, the generic `dN` otherwise. -/
def goNewDispatch (sizes : List Int) : GoD :=
  match sizes with
    | [a] => .d1 a
    | [a, b] => .d2 a b
    | [a, b, c] => .d3 a b c
    | [a, b, c, d] => .d4 a b c d
    | _ => .dn sizes

/-- The constructor `New(sizes...)`: panics (`.error`) on more than 64
dimensions, on any zero length, and on an empty length list, in that order;
otherwise dispatches on the number of lengths. -/
def goNew (sizes : List Int) : Except NewError GoD :=
  if sizes.length > 64 then .error .limitDims
  else if sizes.any (fun s => s = 0) then .error .zeroSize
  else if sizes.length ≤ 0 then .error .zeroDims
  else .ok (goNewDispatch sizes)

/-- `Size` of a constructed dimension value (each concrete type multiplies
its lengths). -/
def goDSize : GoD → Int
  | .d1 a => a
  | .d2 a b => a * b
  | .d3 a b c => a * b * c
  | .d4 a b c d => a * b * c * d
  | .dn l => listProd l

/-- `Dimensionality` of a constructed dimension value. -/
def goDDim : GoD → Nat
  | .d1 _ => 1
  | .d2 _ _ => 2
  | .d3 _ _ _ => 3
  | .d4 _ _ _ _ => 4
  | .dn l => l.length

/-- Row-major index as the specification states it: the sum over axes `i` of
`(offsets[i] mod lengths[i]) * stride_i`, where `stride_i` is the product of
the lengths of the axes before `i` (`stride_0 = 1`). -/
def specRowMajorIndex (lengths offsets : List Int) : Int :=
  ∑ i ∈ Finset.range lengths.length,
    (Int.tmod (offsets.getD i 0) (lengths.getD i 0)) * listProd (lengths.take i)

/-- Structural (head/tail) form of the index accumulator, used to reason about
`dnIndexLoop` by induction. -/
def mixedIndex : List Int → List Int → Int
  | l :: ls, o :: os => Int.tmod o l + l * mixedIndex ls os
  | _, _ => 0

/-- Structural (head/tail) form of the offsets loop. -/
def mixedOffsets : List Int → Int → List Int
  | [], _ => []
  | l :: ls, idx => Int.tmod idx l :: mixedOffsets ls (Int.tdiv idx l)

lemma listProd_eq_prod (ls : List Int) : listProd ls = ls.prod := by
  rw [listProd, List.prod_eq_foldl]

lemma listProd_cons (l : Int) (ls : List Int) :
    listProd (l :: ls) = l * listProd ls := by
  simp [listProd_eq_prod]

lemma listProd_nil : listProd ([] : List Int) = 1 := rfl

lemma listProd_pos {ls : List Int} (h : ∀ l ∈ ls, 0 < l) : 0 < listProd ls := by
  rw [listProd_eq_prod]
  exact List.prod_pos h

lemma dnIndexLoop_eq (ls : List Int) :
    ∀ (os : List Int) (s t : Int),
      dnIndexLoop ls os s t = t + s * mixedIndex ls os := by
  induction ls with
  | nil => intro os s t; cases os <;> simp [dnIndexLoop, mixedIndex]
  | cons l ls ih =>
    intro os s t
    cases os with
    | nil => simp [dnIndexLoop, mixedIndex]
    | cons o os =>
      simp only [dnIndexLoop, mixedIndex, ih]
      ring

lemma dnIndex_eq_mixedIndex (ls os : List Int) :
    dnIndex ls os = mixedIndex ls os := by
  simp [dnIndex, dnIndexLoop_eq]

lemma ediv_ediv_of_nonneg {a b c : Int} (ha : 0 ≤ a) (hb : 0 ≤ b) (hc : 0 ≤ c) :
    a / b / c = a / (b * c) := by
  obtain ⟨m, rfl⟩ := Int.eq_ofNat_of_zero_le ha
  obtain ⟨n, rfl⟩ := Int.eq_ofNat_of_zero_le hb
  obtain ⟨k, rfl⟩ := Int.eq_ofNat_of_zero_le hc
  norm_cast
  exact Nat.div_div_eq_div_mul m n k

lemma tdiv_tdiv_of_nonneg {a b c : Int} (ha : 0 ≤ a) (hb : 0 < b) (hc : 0 < c) :
    (a.tdiv b).tdiv c = a.tdiv (b * c) := by
  rw [Int.tdiv_eq_ediv ha hb.le,
      Int.tdiv_eq_ediv (Int.ediv_nonneg ha hb.le) hc.le,
      Int.tdiv_eq_ediv ha (by positivity),
      ediv_ediv_of_nonneg ha hb.le hc.le]

lemma dnOffsetsLoop_eq (ls : List Int) :
    ∀ (idx s : Int), 0 ≤ idx → 0 < s → (∀ l ∈ ls, 0 < l) →
      dnOffsetsLoop ls idx s = mixedOffsets ls (Int.tdiv idx s) := by
  induction ls with
  | nil => intro idx s _ _ _; simp [dnOffsetsLoop, mixedOffsets]
  | cons l ls ih =>
    intro idx s h0 hs hl
    have hl0 : 0 < l := hl l (by simp)
    have hstep : Int.tdiv idx (s * l) = (Int.tdiv idx s).tdiv l :=
      (tdiv_tdiv_of_nonneg h0 hs hl0).symm
    simp only [dnOffsetsLoop, mixedOffsets, List.cons.injEq]
    refine ⟨trivial, ?_⟩
    rw [ih idx (s * l) h0 (by positivity) (fun x hx => hl x (by simp [hx])), hstep]

lemma dnOffsets_eq_mixedOffsets {ls : List Int} {idx : Int}
    (h0 : 0 ≤ idx) (hl : ∀ l ∈ ls, 0 < l) :
    dnOffsets ls idx = mixedOffsets ls idx := by
  rw [dnOffsets, dnOffsetsLoop_eq ls idx 1 h0 one_pos hl, Int.tdiv_one]

lemma neg_tmod_eq (a b : Int) : Int.tmod (-a) b = -(Int.tmod a b) := by
  rw [Int.tmod_def, Int.tmod_def, Int.neg_tdiv]
  ring

lemma dnOffsetsLoop_neg (ls : List Int) :
    ∀ (a s : Int), dnOffsetsLoop ls (-a) s =
      (dnOffsetsLoop ls a s).map (fun x => -x) := by
  induction ls with
  | nil => intro a s; simp [dnOffsetsLoop]
  | cons l ls ih =>
    intro a s
    simp only [dnOffsetsLoop, List.map_cons, List.cons.injEq]
    refine ⟨?_, ih a (s * l)⟩
    rw [Int.neg_tdiv, neg_tmod_eq]

lemma mixedIndex_nonneg : ∀ (ls os : List Int),
    List.Forall₂ (fun o l => 0 ≤ o ∧ o < l) os ls → 0 ≤ mixedIndex ls os := by
  intro ls os h
  induction h with
  | nil => simp [mixedIndex]
  | cons hol _ ih =>
    obtain ⟨ho, holt⟩ := hol
    have hl : (0:Int) < _ := lt_of_le_of_lt ho holt
    simp only [mixedIndex]
    have := Int.tmod_eq_of_lt ho holt
    rw [this]
    positivity

lemma mixedIndex_lt : ∀ (ls os : List Int),
    List.Forall₂ (fun o l => 0 ≤ o ∧ o < l) os ls →
    mixedIndex ls os < listProd ls := by
  intro ls os h
  induction h with
  | nil => simp [mixedIndex, listProd_nil]
  | @cons o l os ls hol htail ih =>
    obtain ⟨ho, holt⟩ := hol
    have hl : (0:Int) < l := lt_of_le_of_lt ho holt
    simp only [mixedIndex, listProd_cons]
    rw [Int.tmod_eq_of_lt ho holt]
    calc o + l * mixedIndex ls os
        < l + l * mixedIndex ls os := by omega
      _ = l * (mixedIndex ls os + 1) := by ring
      _ ≤ l * listProd ls := by
          have : mixedIndex ls os + 1 ≤ listProd ls := ih
          exact mul_le_mul_of_nonneg_left this hl.le

lemma mixedIndex_mixedOffsets : ∀ (ls : List Int) (idx : Int),
    (∀ l ∈ ls, 0 < l) → 0 ≤ idx → idx < listProd ls →
    mixedIndex ls (mixedOffsets ls idx) = idx := by
  intro ls
  induction ls with
  | nil =>
    intro idx _ h0 hlt
    rw [listProd_nil] at hlt
    simp only [mixedOffsets, mixedIndex]
    omega
  | cons l ls ih =>
    intro idx hpos h0 hlt
    have hl : 0 < l := hpos l (by simp)
    simp only [mixedOffsets, mixedIndex]
    have h2 : Int.tmod (Int.tmod idx l) l = Int.tmod idx l :=
      Int.tmod_eq_of_lt (Int.tmod_nonneg _ h0) (Int.tmod_lt_of_pos _ hl)
    have hdivnn : 0 ≤ Int.tdiv idx l := Int.tdiv_nonneg h0 hl.le
    have hdivlt : Int.tdiv idx l < listProd ls := by
      rw [Int.tdiv_eq_ediv h0 hl.le]
      rw [listProd_cons] at hlt
      exact (Int.ediv_lt_iff_lt_mul hl).mpr (by linarith [hlt, mul_comm l (listProd ls)])
    rw [h2, ih (Int.tdiv idx l) (fun x hx => hpos x (by simp [hx])) hdivnn hdivlt]
    exact Int.tmod_add_tdiv idx l

lemma mixedOffsets_mixedIndex : ∀ (ls os : List Int),
    List.Forall₂ (fun o l => 0 ≤ o ∧ o < l) os ls →
    mixedOffsets ls (mixedIndex ls os) = os := by
  intro ls os h
  induction h with
  | nil => simp [mixedOffsets, mixedIndex]
  | @cons o l os ls hol htail ih =>
    obtain ⟨ho, holt⟩ := hol
    have hl : (0:Int) < l := lt_of_le_of_lt ho holt
    have hrest : 0 ≤ mixedIndex ls os := mixedIndex_nonneg ls os htail
    simp only [mixedIndex, mixedOffsets, List.cons.injEq]
    rw [Int.tmod_eq_of_lt ho holt]
    have hv0 : 0 ≤ o + l * mixedIndex ls os := by positivity
    constructor
    · rw [Int.tmod_eq_emod hv0 hl.le, Int.add_mul_emod_self_left,
          Int.emod_eq_of_lt ho holt]
    · rw [Int.tdiv_eq_ediv hv0 hl.le, Int.add_mul_ediv_left _ _ hl.ne',
          Int.ediv_eq_zero_of_lt ho holt, zero_add, ih]

lemma emod_mul_ediv_of_nonneg {a b c : Int} (ha : 0 ≤ a) (hb : 0 ≤ b)
    (hc : 0 ≤ c) : (a % (b * c)) / b = (a / b) % c := by
  obtain ⟨m, rfl⟩ := Int.eq_ofNat_of_zero_le ha
  obtain ⟨n, rfl⟩ := Int.eq_ofNat_of_zero_le hb
  obtain ⟨k, rfl⟩ := Int.eq_ofNat_of_zero_le hc
  norm_cast
  exact Nat.mod_mul_right_div_self m n k

lemma mixedOffsets_tmod : ∀ (ls : List Int) (idx : Int),
    (∀ l ∈ ls, 0 < l) → 0 ≤ idx →
    mixedOffsets ls (Int.tmod idx (listProd ls)) = mixedOffsets ls idx := by
  intro ls
  induction ls with
  | nil => intro idx _ _; simp [mixedOffsets]
  | cons l ls ih =>
    intro idx hpos h0
    have hl : 0 < l := hpos l (by simp)
    have hP : 0 < listProd ls := listProd_pos (fun x hx => hpos x (by simp [hx]))
    have hlP : (0:Int) < l * listProd ls := by positivity
    have hm0 : 0 ≤ Int.tmod idx (l * listProd ls) := Int.tmod_nonneg _ h0
    simp only [mixedOffsets, listProd_cons, List.cons.injEq]
    constructor
    · rw [Int.tmod_eq_emod hm0 hl.le, Int.tmod_eq_emod h0 hlP.le,
          Int.tmod_eq_emod h0 hl.le]
      exact Int.emod_emod_of_dvd idx ⟨listProd ls, rfl⟩
    · have hq : (Int.tmod idx (l * listProd ls)).tdiv l =
          Int.tmod (Int.tdiv idx l) (listProd ls) := by
        rw [Int.tdiv_eq_ediv hm0 hl.le, Int.tmod_eq_emod h0 hlP.le,
            Int.tdiv_eq_ediv h0 hl.le,
            Int.tmod_eq_emod (Int.ediv_nonneg h0 hl.le) hP.le]
        exact emod_mul_ediv_of_nonneg h0 hl.le hP.le
      rw [hq, ih (Int.tdiv idx l) (fun x hx => hpos x (by simp [hx]))
            (Int.tdiv_nonneg h0 hl.le)]

lemma dnOffsets_neg (ls : List Int) (a : Int) :
    dnOffsets ls (-a) = (dnOffsets ls a).map (fun x => -x) := by
  rw [dnOffsets, dnOffsets, dnOffsetsLoop_neg]

/-- `Offsets` wraps any index, positive or negative, modulo `Size`: the
coordinates of `idx` equal the coordinates of `idx % Size` (Go truncated
remainder). -/
lemma dnOffsets_tmod_size (ls : List Int) (hpos : ∀ l ∈ ls, 0 < l) :
    ∀ idx : Int, dnOffsets ls (Int.tmod idx (listProd ls)) = dnOffsets ls idx := by
  intro idx
  rcases le_or_lt 0 idx with h0 | hneg
  · rw [dnOffsets_eq_mixedOffsets (Int.tmod_nonneg _ h0) hpos,
        dnOffsets_eq_mixedOffsets h0 hpos]
    exact mixedOffsets_tmod ls idx hpos h0
  · have h0 : 0 ≤ -idx := by omega
    have h1 : idx = -(-idx) := by ring
    rw [h1, neg_tmod_eq, dnOffsets_neg, dnOffsets_neg,
        dnOffsets_eq_mixedOffsets (Int.tmod_nonneg _ h0) hpos,
        dnOffsets_eq_mixedOffsets h0 hpos,
        mixedOffsets_tmod ls (-idx) hpos h0]

lemma mixedIndex_eq_specRowMajor : ∀ (ls os : List Int),
    mixedIndex ls os = specRowMajorIndex ls os := by
  intro ls
  induction ls with
  | nil => intro os; simp [mixedIndex, specRowMajorIndex]
  | cons l ls ih =>
    intro os
    cases os with
    | nil =>
      simp [mixedIndex, specRowMajorIndex]
    | cons o os =>
      have ih' := ih os
      simp only [specRowMajorIndex] at ih' ⊢
      simp only [List.length_cons, Finset.sum_range_succ']
      simp only [List.getD_cons_succ, List.getD_cons_zero, List.take_succ_cons,
        listProd_cons, List.take_zero, listProd_nil, mul_one]
      have hfac : ∀ i, Int.tmod (os.getD i 0) (ls.getD i 0) * (l * listProd (ls.take i)) =
          l * (Int.tmod (os.getD i 0) (ls.getD i 0) * listProd (ls.take i)) := by
        intro i; ring
      simp only [hfac, ← Finset.mul_sum]
      simp only [mixedIndex]
      rw [← ih']
      ring

lemma d1Index_eq (r0 o0 : Int) : d1Index r0 o0 = dnIndex [r0] [o0] := by
  simp [d1Index, dnIndex, dnIndexLoop]

lemma d1Offsets_eq (r0 idx : Int) : [d1Offsets r0 idx] = dnOffsets [r0] idx := by
  simp [d1Offsets, dnOffsets, dnOffsetsLoop]

lemma d2Index_eq (r0 r1 o0 o1 : Int) :
    d2Index r0 r1 o0 o1 = dnIndex [r0, r1] [o0, o1] := by
  simp [d2Index, dnIndex, dnIndexLoop]
  ring

lemma d2Offsets_eq (r0 r1 idx : Int) :
    [(d2Offsets r0 r1 idx).1, (d2Offsets r0 r1 idx).2] = dnOffsets [r0, r1] idx := by
  simp [d2Offsets, dnOffsets, dnOffsetsLoop]

lemma d3Index_eq (r0 r1 r2 o0 o1 o2 : Int) :
    d3Index r0 r1 r2 o0 o1 o2 = dnIndex [r0, r1, r2] [o0, o1, o2] := by
  simp [d3Index, dnIndex, dnIndexLoop]
  ring

lemma d3Offsets_eq (r0 r1 r2 idx : Int) :
    [(d3Offsets r0 r1 r2 idx).1, (d3Offsets r0 r1 r2 idx).2.1,
     (d3Offsets r0 r1 r2 idx).2.2] = dnOffsets [r0, r1, r2] idx := by
  simp [d3Offsets, dnOffsets, dnOffsetsLoop]

lemma d4Index_eq (r0 r1 r2 r3 o0 o1 o2 o3 : Int) :
    d4Index r0 r1 r2 r3 o0 o1 o2 o3 = dnIndex [r0, r1, r2, r3] [o0, o1, o2, o3] := by
  simp [d4Index, dnIndex, dnIndexLoop]
  ring

lemma d4Offsets_eq (r0 r1 r2 r3 idx : Int) :
    [(d4Offsets r0 r1 r2 r3 idx).1, (d4Offsets r0 r1 r2 r3 idx).2.1,
     (d4Offsets r0 r1 r2 r3 idx).2.2.1, (d4Offsets r0 r1 r2 r3 idx).2.2.2] =
      dnOffsets [r0, r1, r2, r3] idx := by
  simp only [d4Offsets, dnOffsets, dnOffsetsLoop]
  norm_num [mul_assoc]

lemma dn_roundtrip (lengths : List Int) (hpos : ∀ l ∈ lengths, 0 < l) :
    (∀ idx : Int, 0 ≤ idx → idx < listProd lengths →
      dnIndex lengths (dnOffsets lengths idx) = idx) ∧
    (∀ offsets : List Int,
      List.Forall₂ (fun o l => 0 ≤ o ∧ o < l) offsets lengths →
      dnOffsets lengths (dnIndex lengths offsets) = offsets) := by
  constructor
  · intro idx h0 hlt
    rw [dnOffsets_eq_mixedOffsets h0 hpos, dnIndex_eq_mixedIndex]
    exact mixedIndex_mixedOffsets lengths idx hpos h0 hlt
  · intro offsets h
    rw [dnIndex_eq_mixedIndex,
        dnOffsets_eq_mixedOffsets (mixedIndex_nonneg lengths offsets h) hpos]
    exact mixedOffsets_mixedIndex lengths offsets h

/-- C1: for every dimension shape with positive axis lengths, at any
dimensionality (the generic N-dimensional codec `dN`, and the specialised
`D1`..`D4` codecs), `Index` applied to `Offsets(idx)` returns each in-range
`idx`, and `Offsets` applied to `Index(c)` returns each in-range coordinate
vector `c`. -/
theorem C1_dimensions_roundtrip :
    (∀ lengths : List Int, (∀ l ∈ lengths, 0 < l) →
      (∀ idx : Int, 0 ≤ idx → idx < listProd lengths →
        dnIndex lengths (dnOffsets lengths idx) = idx) ∧
      (∀ offsets : List Int,
        List.Forall₂ (fun o l => 0 ≤ o ∧ o < l) offsets lengths →
        dnOffsets lengths (dnIndex lengths offsets) = offsets)) ∧
    (∀ r0 : Int, 0 < r0 →
      (∀ idx : Int, 0 ≤ idx → idx < r0 → d1Index r0 (d1Offsets r0 idx) = idx) ∧
      (∀ o0 : Int, 0 ≤ o0 → o0 < r0 → d1Offsets r0 (d1Index r0 o0) = o0)) ∧
    (∀ r0 r1 : Int, 0 < r0 → 0 < r1 →
      (∀ idx : Int, 0 ≤ idx → idx < r0 * r1 →
        d2Index r0 r1 (d2Offsets r0 r1 idx).1 (d2Offsets r0 r1 idx).2 = idx) ∧
      (∀ o0 o1 : Int, 0 ≤ o0 → o0 < r0 → 0 ≤ o1 → o1 < r1 →
        d2Offsets r0 r1 (d2Index r0 r1 o0 o1) = (o0, o1))) ∧
    (∀ r0 r1 r2 : Int, 0 < r0 → 0 < r1 → 0 < r2 →
      (∀ idx : Int, 0 ≤ idx → idx < r0 * r1 * r2 →
        d3Index r0 r1 r2 (d3Offsets r0 r1 r2 idx).1
          (d3Offsets r0 r1 r2 idx).2.1 (d3Offsets r0 r1 r2 idx).2.2 = idx) ∧
      (∀ o0 o1 o2 : Int, 0 ≤ o0 → o0 < r0 → 0 ≤ o1 → o1 < r1 → 0 ≤ o2 → o2 < r2 →
        d3Offsets r0 r1 r2 (d3Index r0 r1 r2 o0 o1 o2) = (o0, o1, o2))) ∧
    (∀ r0 r1 r2 r3 : Int, 0 < r0 → 0 < r1 → 0 < r2 → 0 < r3 →
      (∀ idx : Int, 0 ≤ idx → idx < r0 * r1 * r2 * r3 →
        d4Index r0 r1 r2 r3 (d4Offsets r0 r1 r2 r3 idx).1
          (d4Offsets r0 r1 r2 r3 idx).2.1 (d4Offsets r0 r1 r2 r3 idx).2.2.1
          (d4Offsets r0 r1 r2 r3 idx).2.2.2 = idx) ∧
      (∀ o0 o1 o2 o3 : Int,
        0 ≤ o0 → o0 < r0 → 0 ≤ o1 → o1 < r1 → 0 ≤ o2 → o2 < r2 → 0 ≤ o3 → o3 < r3 →
        d4Offsets r0 r1 r2 r3 (d4Index r0 r1 r2 r3 o0 o1 o2 o3) = (o0, o1, o2, o3))) := by
  refine ⟨dn_roundtrip, ?_, ?_, ?_, ?_⟩
  · intro r0 h0
    constructor
    · intro idx hi hlt
      rw [d1Offsets, Int.tmod_eq_of_lt hi hlt, d1Index, Int.tmod_eq_of_lt hi hlt]
    · intro o0 ho hlt
      rw [d1Index, Int.tmod_eq_of_lt ho hlt, d1Offsets, Int.tmod_eq_of_lt ho hlt]
  · intro r0 r1 h0 h1
    have hpos : ∀ l ∈ [r0, r1], 0 < l := by
      intro l hl
      simp only [List.mem_cons, List.not_mem_nil, or_false] at hl
      rcases hl with rfl | rfl <;> assumption
    have hP : listProd [r0, r1] = r0 * r1 := by
      simp [listProd_cons, listProd_nil]
    constructor
    · intro idx hi hlt
      have h := (dn_roundtrip [r0, r1] hpos).1 idx hi (by rw [hP]; exact hlt)
      rw [d2Index_eq, d2Offsets_eq]
      exact h
    · intro o0 o1 ho0 ho0l ho1 ho1l
      have hfa : List.Forall₂ (fun o l => 0 ≤ o ∧ o < l) [o0, o1] [r0, r1] :=
        .cons ⟨ho0, ho0l⟩ (.cons ⟨ho1, ho1l⟩ .nil)
      have h := (dn_roundtrip [r0, r1] hpos).2 [o0, o1] hfa
      have h2 := d2Offsets_eq r0 r1 (d2Index r0 r1 o0 o1)
      rw [d2Index_eq] at h2
      rw [h] at h2
      simp only [List.cons.injEq, and_true] at h2
      obtain ⟨e1, e2⟩ := h2
      rw [d2Index_eq]
      exact Prod.ext e1 e2
  · intro r0 r1 r2 h0 h1 h2
    have hpos : ∀ l ∈ [r0, r1, r2], 0 < l := by
      intro l hl
      simp only [List.mem_cons, List.not_mem_nil, or_false] at hl
      rcases hl with rfl | rfl | rfl <;> assumption
    have hP : listProd [r0, r1, r2] = r0 * r1 * r2 := by
      simp [listProd_cons, listProd_nil]
      ring
    constructor
    · intro idx hi hlt
      have h := (dn_roundtrip [r0, r1, r2] hpos).1 idx hi (by rw [hP]; exact hlt)
      rw [d3Index_eq, d3Offsets_eq]
      exact h
    · intro o0 o1 o2 ho0 ho0l ho1 ho1l ho2 ho2l
      have hfa : List.Forall₂ (fun o l => 0 ≤ o ∧ o < l) [o0, o1, o2] [r0, r1, r2] :=
        .cons ⟨ho0, ho0l⟩ (.cons ⟨ho1, ho1l⟩ (.cons ⟨ho2, ho2l⟩ .nil))
      have h := (dn_roundtrip [r0, r1, r2] hpos).2 [o0, o1, o2] hfa
      have h2 := d3Offsets_eq r0 r1 r2 (d3Index r0 r1 r2 o0 o1 o2)
      rw [d3Index_eq] at h2
      rw [h] at h2
      simp only [List.cons.injEq, and_true] at h2
      obtain ⟨e1, e2, e3⟩ := h2
      rw [d3Index_eq]
      exact Prod.ext e1 (Prod.ext e2 e3)
  · intro r0 r1 r2 r3 h0 h1 h2 h3
    have hpos : ∀ l ∈ [r0, r1, r2, r3], 0 < l := by
      intro l hl
      simp only [List.mem_cons, List.not_mem_nil, or_false] at hl
      rcases hl with rfl | rfl | rfl | rfl <;> assumption
    have hP : listProd [r0, r1, r2, r3] = r0 * r1 * r2 * r3 := by
      simp [listProd_cons, listProd_nil]
      ring
    constructor
    · intro idx hi hlt
      have h := (dn_roundtrip [r0, r1, r2, r3] hpos).1 idx hi (by rw [hP]; exact hlt)
      rw [d4Index_eq, d4Offsets_eq]
      exact h
    · intro o0 o1 o2 o3 ho0 ho0l ho1 ho1l ho2 ho2l ho3 ho3l
      have hfa : List.Forall₂ (fun o l => 0 ≤ o ∧ o < l)
          [o0, o1, o2, o3] [r0, r1, r2, r3] :=
        .cons ⟨ho0, ho0l⟩ (.cons ⟨ho1, ho1l⟩ (.cons ⟨ho2, ho2l⟩ (.cons ⟨ho3, ho3l⟩ .nil)))
      have h := (dn_roundtrip [r0, r1, r2, r3] hpos).2 [o0, o1, o2, o3] hfa
      have h2 := d4Offsets_eq r0 r1 r2 r3 (d4Index r0 r1 r2 r3 o0 o1 o2 o3)
      rw [d4Index_eq] at h2
      rw [h] at h2
      simp only [List.cons.injEq, and_true] at h2
      obtain ⟨e1, e2, e3, e4⟩ := h2
      rw [d4Index_eq]
      exact Prod.ext e1 (Prod.ext e2 (Prod.ext e3 e4))

/-- Witness for C1 at concrete shapes: 5-dimensional `[2,2,2,2,2]` with index
21 and coordinates `[1,0,1,0,1]`, and concrete inputs for `D1`..`D4`. -/
theorem C1_dimensions_roundtrip_witness :
    dnIndex [2, 2, 2, 2, 2] (dnOffsets [2, 2, 2, 2, 2] 21) = 21 ∧
    dnOffsets [2, 2, 2, 2, 2] (dnIndex [2, 2, 2, 2, 2] [1, 0, 1, 0, 1]) =
      [1, 0, 1, 0, 1] ∧
    d1Index 5 (d1Offsets 5 3) = 3 ∧
    d2Offsets 3 4 (d2Index 3 4 2 3) = (2, 3) ∧
    d3Index 2 3 4 (d3Offsets 2 3 4 17).1 (d3Offsets 2 3 4 17).2.1
      (d3Offsets 2 3 4 17).2.2 = 17 ∧
    d4Offsets 2 2 2 2 (d4Index 2 2 2 2 1 0 1 1) = (1, 0, 1, 1) := by
  refine ⟨?_, ?_, ?_, ?_, ?_, ?_⟩
  · exact (C1_dimensions_roundtrip.1 [2, 2, 2, 2, 2] (by decide)).1 21
      (by decide) (by decide)
  · exact (C1_dimensions_roundtrip.1 [2, 2, 2, 2, 2] (by decide)).2 [1, 0, 1, 0, 1]
      (.cons (by decide) (.cons (by decide) (.cons (by decide)
        (.cons (by decide) (.cons (by decide) .nil)))))
  · exact (C1_dimensions_roundtrip.2.1 5 (by decide)).1 3 (by decide) (by decide)
  · exact (C1_dimensions_roundtrip.2.2.1 3 4 (by decide) (by decide)).2 2 3
      (by decide) (by decide) (by decide) (by decide)
  · exact (C1_dimensions_roundtrip.2.2.2.1 2 3 4 (by decide) (by decide)
      (by decide)).1 17 (by decide) (by decide)
  · exact (C1_dimensions_roundtrip.2.2.2.2 2 2 2 2 (by decide) (by decide)
      (by decide) (by decide)).2 1 0 1 1 (by decide) (by decide) (by decide)
      (by decide) (by decide) (by decide) (by decide) (by decide)

/-- C2: `Index` equals the row-major sum of per-axis wrapped offsets times
strides (for all inputs, wrapping with Go truncated `%`), and `Offsets`
produces, for every index, the coordinates of the index wrapped modulo
`Size`.  Stated for the generic codec and for `D1` (the cited sources). -/
theorem C2_wrapping :
    (∀ lengths offsets : List Int,
      dnIndex lengths offsets = specRowMajorIndex lengths offsets) ∧
    (∀ lengths : List Int, (∀ l ∈ lengths, 0 < l) → ∀ idx : Int,
      dnOffsets lengths idx = dnOffsets lengths (Int.tmod idx (listProd lengths))) ∧
    (∀ r0 o0 : Int, d1Index r0 o0 = specRowMajorIndex [r0] [o0]) ∧
    (∀ r0 : Int, 0 < r0 → ∀ idx : Int,
      d1Offsets r0 idx = d1Offsets r0 (Int.tmod idx r0)) := by
  refine ⟨?_, ?_, ?_, ?_⟩
  · intro lengths offsets
    rw [dnIndex_eq_mixedIndex]
    exact mixedIndex_eq_specRowMajor lengths offsets
  · intro lengths hpos idx
    exact (dnOffsets_tmod_size lengths hpos idx).symm
  · intro r0 o0
    rw [d1Index_eq, dnIndex_eq_mixedIndex]
    exact mixedIndex_eq_specRowMajor [r0] [o0]
  · intro r0 h0 idx
    have hpos : ∀ l ∈ [r0], 0 < l := by
      intro l hl
      simp only [List.mem_cons, List.not_mem_nil, or_false] at hl
      subst hl
      exact h0
    have hP : listProd [r0] = r0 := by simp [listProd_cons, listProd_nil]
    have h := dnOffsets_tmod_size [r0] hpos idx
    rw [hP] at h
    have h1 := d1Offsets_eq r0 idx
    have h2 := d1Offsets_eq r0 (Int.tmod idx r0)
    rw [← h1, ← h2] at h
    simpa using h.symm

/-- Witness for C2 at concrete out-of-range inputs, including a negative
index. -/
theorem C2_wrapping_witness :
    dnIndex [2, 3] [5, 7] = specRowMajorIndex [2, 3] [5, 7] ∧
    dnOffsets [2, 3] (-7) = dnOffsets [2, 3] (Int.tmod (-7) (listProd [2, 3])) ∧
    d1Offsets 5 13 = d1Offsets 5 (Int.tmod 13 5) := by
  refine ⟨C2_wrapping.1 [2, 3] [5, 7], ?_, ?_⟩
  · exact C2_wrapping.2.1 [2, 3] (by decide) (-7)
  · exact C2_wrapping.2.2.2 5 (by decide) 13

/-- C10: the constructor `New` rejects (panics) exactly the empty length
list, any length equal to zero, and more than 64 lengths; negative lengths
are accepted.  Every accepted input yields a `D` whose dimensionality is the
number of lengths and whose size is their product. -/
theorem C10_new_validation (sizes : List Int) :
    ((∃ e, goNew sizes = .error e) ↔
      (sizes = [] ∨ (0 : Int) ∈ sizes ∨ sizes.length > 64)) ∧
    (∀ d : GoD, goNew sizes = .ok d →
      goDDim d = sizes.length ∧ goDSize d = listProd sizes) := by
  by_cases h64 : sizes.length > 64
  · have he : goNew sizes = .error .limitDims := by
      rw [goNew, if_pos h64]
    refine ⟨iff_of_true ⟨_, he⟩ (Or.inr (Or.inr h64)), ?_⟩
    intro d hd
    rw [he] at hd
    exact absurd hd (by simp)
  · by_cases hz : (0 : Int) ∈ sizes
    · have hany : sizes.any (fun s => s = 0) = true := by
        simp only [List.any_eq_true, decide_eq_true_eq]
        exact ⟨0, hz, rfl⟩
      have he : goNew sizes = .error .zeroSize := by
        rw [goNew, if_neg h64, if_pos hany]
      refine ⟨iff_of_true ⟨_, he⟩ (Or.inr (Or.inl hz)), ?_⟩
      intro d hd
      rw [he] at hd
      exact absurd hd (by simp)
    · have hany : ¬ sizes.any (fun s => s = 0) = true := by
        simp only [List.any_eq_true, decide_eq_true_eq]
        rintro ⟨x, hx, rfl⟩
        exact hz hx
      by_cases hnil : sizes = []
      · subst hnil
        have he : goNew [] = .error .zeroDims := rfl
        refine ⟨iff_of_true ⟨_, he⟩ (Or.inl rfl), ?_⟩
        intro d hd
        rw [he] at hd
        exact absurd hd (by simp)
      · have hle : ¬ sizes.length ≤ 0 := by
          cases sizes with
          | nil => exact absurd rfl hnil
          | cons a tl => simp
        have hrhs : ¬ (sizes = [] ∨ (0 : Int) ∈ sizes ∨ sizes.length > 64) := by
          push_neg
          exact ⟨hnil, hz, by omega⟩
        rcases sizes with _ | ⟨a, _ | ⟨b, _ | ⟨c, _ | ⟨d4, _ | ⟨e5, rest⟩⟩⟩⟩⟩
        · exact absurd rfl hnil
        · have hok : goNew [a] = .ok (.d1 a) := by
            rw [goNew, if_neg h64, if_neg hany, if_neg hle]
            rfl
          refine ⟨iff_of_false (by simp [hok]) hrhs, ?_⟩
          intro d hd
          rw [hok] at hd
          obtain rfl : GoD.d1 a = d := by simpa using hd
          exact ⟨rfl, by simp [goDSize, listProd_cons, listProd_nil]⟩
        · have hok : goNew [a, b] = .ok (.d2 a b) := by
            rw [goNew, if_neg h64, if_neg hany, if_neg hle]
            rfl
          refine ⟨iff_of_false (by simp [hok]) hrhs, ?_⟩
          intro d hd
          rw [hok] at hd
          obtain rfl : GoD.d2 a b = d := by simpa using hd
          exact ⟨rfl, by simp [goDSize, listProd_cons, listProd_nil]⟩
        · have hok : goNew [a, b, c] = .ok (.d3 a b c) := by
            rw [goNew, if_neg h64, if_neg hany, if_neg hle]
            rfl
          refine ⟨iff_of_false (by simp [hok]) hrhs, ?_⟩
          intro d hd
          rw [hok] at hd
          obtain rfl : GoD.d3 a b c = d := by simpa using hd
          exact ⟨rfl, by simp [goDSize, listProd_cons, listProd_nil]; ring⟩
        · have hok : goNew [a, b, c, d4] = .ok (.d4 a b c d4) := by
            rw [goNew, if_neg h64, if_neg hany, if_neg hle]
            rfl
          refine ⟨iff_of_false (by simp [hok]) hrhs, ?_⟩
          intro d hd
          rw [hok] at hd
          obtain rfl : GoD.d4 a b c d4 = d := by simpa using hd
          exact ⟨rfl, by simp [goDSize, listProd_cons, listProd_nil]; ring⟩
        · have hok : goNew (a :: b :: c :: d4 :: e5 :: rest) =
              .ok (.dn (a :: b :: c :: d4 :: e5 :: rest)) := by
            rw [goNew, if_neg h64, if_neg hany, if_neg hle]
            rfl
          refine ⟨iff_of_false (by simp [hok]) hrhs, ?_⟩
          intro d hd
          rw [hok] at hd
          obtain rfl : GoD.dn (a :: b :: c :: d4 :: e5 :: rest) = d := by simpa using hd
          exact ⟨rfl, rfl⟩

/-- Witness for C10: a negative length is accepted; the result reports the
dimensionality and (negative) size. -/
theorem C10_new_validation_witness :
    goDDim (GoD.d1 (-3)) = ([(-3 : Int)]).length ∧
    goDSize (GoD.d1 (-3)) = listProd [(-3 : Int)] :=
  (C10_new_validation [(-3)]).2 (GoD.d1 (-3)) rfl

end Dims

namespace MatrixV1

/-- `Grid.Set`: `g.values[idx] = value`.  Indices in the claims are
non-negative and in range, so the index is a `Nat` (an out-of-range write
panics in Go and is a no-op for `List.set`; it is never exercised). -/
def gridSet {T : Type} (values : List T) (idx : Nat) (value : T) : List T :=
  values.set idx value

/-- The scan loop of `Grid.Next`: checks indices `i, i+1, ...` while they
are below `Size`, returning the first that holds a non-zero value.  The
recursion is on the remaining count `size - i`. -/
def gridNextLoop {T : Type} [DecidableEq T] (zero : T) (values : List T) :
    Nat → Nat → Option Nat
  | _, 0 => none
  | i, r + 1 =>
    if values.getD i zero ≠ zero then some i
    else gridNextLoop zero values (i + 1) r

/-- `Grid.Next`: clamps `idx` to at least `-1`, then scans from `idx+1` for
the next non-zero value; `(0, false)` when none remains. -/
def gridNext {T : Type} [DecidableEq T] (zero : T) (values : List T)
    (size idx : Int) : Int × Bool :=
  let start := (if idx < 0 then -1 else idx) + 1
  match gridNextLoop zero values start.toNat (size.toNat - start.toNat) with
  | some i => ((i : Int), true)
  | none => (0, false)

/-- `^uint64(0)`, the all-ones 64-bit word. -/
def u64max : Nat := 2 ^ 64 - 1

/-- `bucketIndex`: bucket `idx >> 6` and single-bit mask `1 << (idx % 64)`
(indices in the claims are non-negative). -/
def bucketIndex (idx : Nat) : Nat × Nat := (idx >>> 6, 1 <<< (idx % 64))

/-- `Bit.Get`: `int((mask & buckets[bucket]) >> (idx % 64))`. -/
def bitGet (buckets : List Nat) (idx : Nat) : Int :=
  (((bucketIndex idx).2 &&& buckets.getD (bucketIndex idx).1 0) >>> (idx % 64) : Nat)

/-- `Bit.Set`: or the mask in when `value > 0`, and-not it out otherwise. -/
def bitSet (buckets : List Nat) (idx : Nat) (value : Int) : List Nat :=
  let b := (bucketIndex idx).1
  let mask := (bucketIndex idx).2
  if value > 0 then buckets.set b (buckets.getD b 0 ||| mask)
  else buckets.set b (buckets.getD b 0 &&& (u64max ^^^ mask))

/-- Bucket count allocated by `NewBit`/`NewBool`: `size/64`, plus one when
`size % 64 ≠ 0`. -/
def newBitBuckets (size : Nat) : List Nat :=
  List.replicate (size / 64 + if size % 64 ≠ 0 then 1 else 0) 0

/-- The bucket-skipping loop of `Bit.Next`: the first bucket index `≥ start`
whose bucket is non-zero (`none` = Go `target = -1`). -/
def bitFindBucket (buckets : List Nat) : Nat → Nat → Option Nat
  | _, 0 => none
  | i, r + 1 =>
    if buckets.getD i 0 ≠ 0 then some i
    else bitFindBucket buckets (i + 1) r

/-- The bit-scan loop of `Bit.Next`: the first bit position in `[offset, 64)`
set in `bucket`. -/
def bitScan (bucket : Nat) : Nat → Nat → Option Nat
  | _, 0 => none
  | i, r + 1 =>
    if bucket &&& (1 <<< i) = 1 <<< i then some i
    else bitScan bucket (i + 1) r

/-- `Bit.Next` exactly as implemented.  Note: on success the code returns the
bit position `int(i)` inside the target bucket, not `target*64 + i`, and the
starting `offset` is not reset to 0 when the scan moves to a later bucket. -/
def bitNext (buckets : List Nat) (idx : Int) : Int × Bool :=
  let start0 := (if idx < 0 then -1 else idx) + 1
  let start := start0.toNat / 64
  let offset := start0.toNat % 64
  match bitFindBucket buckets start (buckets.length - start) with
  | none => (0, false)
  | some target =>
    match bitScan (buckets.getD target 0) offset (64 - offset) with
    | some i => ((i : Int), true)
    | none => (0, false)

/-- Repeated `Next` from a starting index, collecting the produced indices
(`fuel` bounds the number of calls). -/
def bitNextSeq (buckets : List Nat) : Int → Nat → List Int
  | _, 0 => []
  | idx, f + 1 =>
    match bitNext buckets idx with
    | (i, true) => i :: bitNextSeq buckets i f
    | (_, false) => []

/-- C3: the Grid and Bit backends of shape `[70]`, after the same single
in-range `Set(65, 1)`, disagree on the first index produced by `Next(-1)`:
Grid reports 65, Bit reports 1 (the bit position inside bucket 1).  This
refutes the claimed backend equivalence of `next` sequences; the Bit
behaviour also contradicts `Next`'s own documented contract, so the code is
at fault. -/
theorem C3_backend_next_divergence :
    gridNext (0 : Int) (gridSet (List.replicate 70 (0 : Int)) 65 1) 70 (-1)
      = (65, true) ∧
    bitNext (bitSet (newBitBuckets 70) 65 1) (-1) = (1, true) := by
  constructor
  · decide
  · decide

/-- C4: for the Bit backend of shape `[128]` with only index 64 set true,
repeated `Next` from `-1` produces `[0]`, while the true-bit set in
ascending order is `[64]`: the scan is wrong at the bucket boundary (it
returns the in-bucket bit position instead of the flat index). -/
theorem C4_bit_next_bucket_boundary :
    bitNextSeq (bitSet (newBitBuckets 128) 64 1) (-1) 200 = [0] ∧
    (List.range 128).filter
      (fun i => decide (bitGet (bitSet (newBitBuckets 128) 64 1) i = 1)) = [64] := by
  constructor
  · decide
  · decide

/-- The loop of `integer.Pow` (exponentiation by squaring): while `n > 1`,
halve `n` (after an odd step that folds one factor into `y`) and square
`x`; finally return `x * y`. -/
def powLoop (x y : Int) (n : Nat) : Int :=
  if 1 < n then
    powLoop (x * x) (if n % 2 = 1 then x * y else y)
      ((if n % 2 = 1 then n - 1 else n) / 2)
  else x * y
termination_by n
decreasing_by
  split <;> omega

/-- `integer.Pow`: `0^0 = 1`, negative exponents truncate to 0, otherwise
the squaring loop.  The exponent is a Go `int`. -/
def goPow (x n : Int) : Int :=
  if x = 0 ∧ n = 0 then 1
  else if n < 0 then 0
  else if n = 0 then 1
  else powLoop x 1 n.toNat

lemma powLoop_eq (n : Nat) : ∀ (x y : Int), 1 ≤ n → powLoop x y n = x ^ n * y := by
  induction n using Nat.strong_induction_on with
  | _ n ih =>
    intro x y hn
    unfold powLoop
    by_cases h1 : 1 < n
    · rw [if_pos h1]
      by_cases hodd : n % 2 = 1
      · rw [if_pos hodd, if_pos hodd]
        have hrec := ih ((n - 1) / 2) (by omega) (x * x) (x * y) (by omega)
        rw [hrec]
        have hx : x * x = x ^ 2 := by ring
        rw [hx, ← pow_mul]
        have h2 : 2 * ((n - 1) / 2) = n - 1 := by omega
        rw [h2]
        have hsplit : n = (n - 1) + 1 := by omega
        calc x ^ (n - 1) * (x * y) = x ^ (n - 1) * x ^ 1 * y := by ring
          _ = x ^ ((n - 1) + 1) * y := by rw [← pow_add]
          _ = x ^ n * y := by rw [← hsplit]
      · rw [if_neg hodd, if_neg hodd]
        have hrec := ih (n / 2) (by omega) (x * x) y (by omega)
        rw [hrec]
        have hx : x * x = x ^ 2 := by ring
        rw [hx, ← pow_mul]
        have h2 : 2 * (n / 2) = n := by omega
        rw [h2]
    · rw [if_neg h1]
      have : n = 1 := by omega
      subst this
      rw [pow_one]

lemma goPow_natCast (x : Int) (d : Nat) (hd : 1 ≤ d) : goPow x (d : Int) = x ^ d := by
  rw [goPow]
  have hne : ¬ (x = 0 ∧ (d : Int) = 0) := by
    rintro ⟨_, h⟩
    omega
  rw [if_neg hne, if_neg (by omega), if_neg (by omega)]
  rw [Int.toNat_natCast, powLoop_eq d x 1 hd, mul_one]

/-- `series.Geometric.Sum` with the integer power function, exactly as in the
source: ratio 0 gives `(n+1)*coefficient`, ratio 1 gives
`ratio*coefficient`, otherwise `coefficient * ((1 - r^(n+1)) / (1 - r))`
with Go integer division. -/
def goGeomSum (coefficient r n : Int) : Int :=
  if r = 0 then (n + 1) * coefficient
  else if r = 1 then r * coefficient
  else coefficient * ((1 - goPow r (n + 1)).tdiv (1 - r))

/-- `diagonalOffset`: index into the diagonal values, or -1 if `idx` is not
on the diagonal, with `n = Sum(dimensionality - 1)` of the geometric series
with coefficient 1 and ratio `length` (the Go code binds `n` once; it is
written out here for ease of rewriting). -/
def diagonalOffset (dimensionality length idx : Int) : Int :=
  if Int.tmod idx (goGeomSum 1 length (dimensionality - 1)) ≠ 0 then -1
  else Int.tdiv idx (goGeomSum 1 length (dimensionality - 1))

/-- `Diagonal.Set`: returns the updated diagonal values, or `none` for a
panic (a non-zero write off the diagonal, or an out-of-range values access;
the Go code binds `i := diagonalOffset …` once). -/
def goDiagonalSet {T : Type} [DecidableEq T] (zero : T) (dimensionality : Int)
    (values : List T) (idx : Int) (value : T) : Option (List T) :=
  if diagonalOffset dimensionality values.length idx < 0 then
    (if value = zero then some values else none)
  else if (diagonalOffset dimensionality values.length idx).toNat < values.length then
    some (values.set (diagonalOffset dimensionality values.length idx).toNat value)
  else none

/-- The diagonal step as the specification states it:
`n = s^0 + s^1 + … + s^(d-1)`. -/
def specDiagStep (d s : Nat) : Nat := ∑ k ∈ Finset.range d, s ^ k

lemma goGeomSum_eq_specDiagStep (d s : Nat) (hd : 1 ≤ d) (hs : 2 ≤ s) :
    goGeomSum 1 (s : Int) ((d : Int) - 1) = (specDiagStep d s : Int) := by
  have hs0 : (s : Int) ≠ 0 := by omega
  have hs1 : (s : Int) ≠ 1 := by omega
  rw [goGeomSum, if_neg hs0, if_neg hs1]
  have harg : (d : Int) - 1 + 1 = (d : Int) := by ring
  rw [harg, goPow_natCast _ d hd, one_mul]
  have hgeom : (∑ k ∈ Finset.range d, (s : Int) ^ k) * ((s : Int) - 1) =
      (s : Int) ^ d - 1 := geom_sum_mul _ d
  have hfac : 1 - (s : Int) ^ d = (1 - (s : Int)) * (∑ k ∈ Finset.range d, (s : Int) ^ k) := by
    have := hgeom
    ring_nf
    ring_nf at this
    linarith
  have hcast : (specDiagStep d s : Int) = ∑ k ∈ Finset.range d, (s : Int) ^ k := by
    rw [specDiagStep]
    push_cast
    rfl
  rw [hfac, Int.mul_tdiv_cancel_left _ (by omega), hcast]

lemma specDiagStep_pos (d s : Nat) (hd : 1 ≤ d) : 1 ≤ specDiagStep d s := by
  rw [specDiagStep]
  have h0 : (0 : Nat) ∈ Finset.range d := Finset.mem_range.mpr (by omega)
  calc (1 : Nat) = s ^ 0 := (pow_zero s).symm
    _ ≤ ∑ k ∈ Finset.range d, s ^ k :=
        Finset.single_le_sum (fun i _ => Nat.zero_le _) h0

lemma specDiagStep_mul (d s : Nat) :
    (specDiagStep d s : Int) * ((s : Int) - 1) = (s : Int) ^ d - 1 := by
  have hcast : (specDiagStep d s : Int) = ∑ k ∈ Finset.range d, (s : Int) ^ k := by
    rw [specDiagStep]
    push_cast
    rfl
  rw [hcast]
  exact geom_sum_mul _ d

/-- C7: for an in-range index of a Diagonal matrix of dimensionality `d ≥ 1`
and side `s ≥ 1`, `Set(idx, value)` panics iff `value` is non-zero and `idx`
is not a multiple of `n = s^0 + … + s^(d-1)`; writing zero off the diagonal
silently leaves the values unchanged. -/
theorem C7_diagonal_set {T : Type} [DecidableEq T] (zero : T)
    (d s : Nat) (hd : 1 ≤ d) (hs : 1 ≤ s) (values : List T)
    (hlen : values.length = s) (idx : Int) (h0 : 0 ≤ idx)
    (hlt : idx < (s : Int) ^ d) (value : T) :
    (goDiagonalSet zero (d : Int) values idx value = none ↔
      (value ≠ zero ∧ ¬ ((specDiagStep d s : Int) ∣ idx))) ∧
    (value = zero → ¬ ((specDiagStep d s : Int) ∣ idx) →
      goDiagonalSet zero (d : Int) values idx value = some values) := by
  subst hlen
  by_cases hs1 : values.length = 1
  · -- side 1: the only in-range index is 0, which is on the diagonal
    have hidx : idx = 0 := by
      rw [hs1] at hlt
      rw [Nat.cast_one, one_pow] at hlt
      omega
    subst hidx
    have hdvd : (specDiagStep d values.length : Int) ∣ 0 := dvd_zero _
    have hoff : diagonalOffset (d : Int) (values.length : Int) 0 = 0 := by
      rw [diagonalOffset, if_neg (by simp)]
      simp [Int.zero_tdiv]
    have hres : goDiagonalSet zero (d : Int) values 0 value =
        some (values.set 0 value) := by
      rw [goDiagonalSet, hoff, if_neg (by omega), if_pos (by omega)]
      simp
    constructor
    · rw [hres]
      simp only [reduceCtorEq, false_iff, not_and, not_not]
      intro _
      exact hdvd
    · intro _ hcon
      exact absurd hdvd hcon
  · -- side ≥ 2
    have hs2 : 2 ≤ values.length := by omega
    have hgs : goGeomSum 1 (values.length : Int) ((d : Int) - 1) =
        (specDiagStep d values.length : Int) :=
      goGeomSum_eq_specDiagStep d values.length hd hs2
    have hNpos : (0 : Int) < (specDiagStep d values.length : Int) := by
      have := specDiagStep_pos d values.length hd
      omega
    set N : Int := (specDiagStep d values.length : Int) with hN
    by_cases hdvd : N ∣ idx
    · obtain ⟨q, rfl⟩ := hdvd
      have hq0 : 0 ≤ q := by nlinarith
      have hqlt : q < (values.length : Int) := by
        have hmul := specDiagStep_mul d values.length
        rw [← hN] at hmul
        -- N * q < s^d = N * (s - 1) + 1, so q ≤ s - 1
        have h1 : N * q < N * ((values.length : Int) - 1) + 1 := by
          rw [mul_comm N ((values.length : Int) - 1), hmul] at *
          omega
        nlinarith
      have hoff : diagonalOffset (d : Int) (values.length : Int) (N * q) = q := by
        rw [diagonalOffset, hgs, if_neg (by simp [Int.mul_tmod_right]),
            Int.mul_tdiv_cancel_left _ hNpos.ne']
      have hres : goDiagonalSet zero (d : Int) values (N * q) value =
          some (values.set q.toNat value) := by
        rw [goDiagonalSet, hoff, if_neg (by omega), if_pos (by omega)]
      constructor
      · rw [hres]
        simp only [reduceCtorEq, false_iff, not_and, not_not]
        intro _
        exact Dvd.intro q rfl
      · intro _ hcon
        exact absurd (Dvd.intro q rfl) hcon
    · have hmod : Int.tmod idx N ≠ 0 := fun h =>
        hdvd (Int.dvd_of_tmod_eq_zero h)
      have hoff : diagonalOffset (d : Int) (values.length : Int) idx = -1 := by
        rw [diagonalOffset, hgs, if_pos hmod]
      have hres : goDiagonalSet zero (d : Int) values idx value =
          (if value = zero then some values else none) := by
        rw [goDiagonalSet, hoff, if_pos (by omega)]
      constructor
      · rw [hres]
        by_cases hv : value = zero
        · rw [if_pos hv]
          simp [hv, hdvd]
        · rw [if_neg hv]
          simp [hv, hdvd]
      · intro hv _
        rw [hres, if_pos hv]

/-- Witness for C7: dimensionality 2, side 5 (`n = 6`), index 7 off the
diagonal with a non-zero value panics; the iff and the no-op clause are
instantiated concretely. -/
theorem C7_diagonal_set_witness :
    (goDiagonalSet (0 : Int) ((2 : Nat) : Int) (List.replicate 5 (0 : Int)) 7 1 = none ↔
      ((1 : Int) ≠ 0 ∧ ¬ ((specDiagStep 2 5 : Int) ∣ 7))) ∧
    ((1 : Int) = 0 → ¬ ((specDiagStep 2 5 : Int) ∣ 7) →
      goDiagonalSet (0 : Int) ((2 : Nat) : Int) (List.replicate 5 (0 : Int)) 7 1 =
        some (List.replicate 5 (0 : Int))) :=
  C7_diagonal_set 0 2 5 (by decide) (by decide) (List.replicate 5 (0 : Int))
    (by decide) 7 (by decide) (by norm_num) 1

end MatrixV1

namespace ReduceV1

/-- The recursive odometer `increment` inside the v1 `Reduce`: bumps offset
`i`, carrying into offset `i+1` when the bumped offset reaches the axis
length, and reports `false` once the carry passes the last axis.  The fuel
argument mirrors the bounded recursion depth (`i` only increases, so
`lengths.length + 1` steps always suffice). -/
def reduceIncrement (lengths : List Int) : List Int → Nat → Nat → (List Int × Bool)
  | offsets, _, 0 => (offsets, false)
  | offsets, i, r + 1 =>
    if i ≥ lengths.length then (offsets, false)
    else
      let bumped := offsets.set i (offsets.getD i 0 + 1)
      if bumped.getD i 0 ≥ lengths.getD i 0 then
        reduceIncrement lengths (bumped.set i 0) (i + 1) r
      else (bumped, true)

/-- The main loop of the v1 `Reduce`: each iteration computes
`total = sum(total, identity)` (note: the identity, not a matrix element)
and advances the odometer; every exit path returns `identity`, exactly as
the source does.  Fuel bounds the iteration count; the returned value is the
same for every fuel. -/
def goReduceLoop {T : Type} (sum : T → T → T) (identity : T) (lengths : List Int) :
    Nat → List Int → T → T
  | 0, _, _ => identity
  | fuel + 1, offsets, total =>
    match reduceIncrement lengths offsets 0 (lengths.length + 1) with
    | (offsets', true) =>
        goReduceLoop sum identity lengths fuel offsets' (sum total identity)
    | (_, false) => identity

/-- `Reduce(m, identity, sum)` of the v1 matrix package: reads only the
dimensionality and axis lengths of `m` (never a stored value) and returns
`identity`. -/
def goReduce {T : Type} (lengths : List Int) (identity : T) (sum : T → T → T) : T :=
  goReduceLoop sum identity lengths ((Dims.listProd lengths).toNat + 1)
    (List.replicate lengths.length 0) identity

/-- The fold the specification describes: `combine` applied to every stored
value of the matrix (here: the backing values of a dense grid), starting
from the identity. -/
def specReduce {T : Type} (values : List T) (identity : T) (sum : T → T → T) : T :=
  values.foldl sum identity

lemma goReduceLoop_eq_identity {T : Type} (sum : T → T → T) (identity : T)
    (lengths : List Int) :
    ∀ (fuel : Nat) (offsets : List Int) (total : T),
      goReduceLoop sum identity lengths fuel offsets total = identity := by
  intro fuel
  induction fuel with
  | zero => intro offsets total; rfl
  | succ n ih =>
    intro offsets total
    rw [goReduceLoop]
    rcases h : reduceIncrement lengths offsets 0 (lengths.length + 1) with ⟨offsets', b⟩
    cases b
    · rfl
    · exact ih offsets' (sum total identity)

/-- C5: `Reduce` always returns the identity value — it combines the
identity with itself and discards the total — so it does not fold the stored
values.  Concretely, on a 1-element grid holding 5, the claimed fold yields
5 but `Reduce` yields 0. -/
theorem C5_reduce_ignores_values :
    (∀ {T : Type} (sum : T → T → T) (identity : T) (lengths : List Int),
      goReduce lengths identity sum = identity) ∧
    goReduce [1] (0 : Int) (fun a b => a + b) = 0 ∧
    specReduce [(5 : Int)] 0 (fun a b => a + b) = 5 := by
  refine ⟨?_, ?_, ?_⟩
  · intro T sum identity lengths
    exact goReduceLoop_eq_identity sum identity lengths _ _ _
  · exact goReduceLoop_eq_identity _ _ _ _ _ _
  · rfl

end ReduceV1

namespace Bitseq

/-- The magic header: the bytes of "BitseqV1" packed into a 64-bit word by
the shifts in the source. -/
def magic : Nat :=
  ('B'.toNat) + ('i'.toNat <<< 8) + ('t'.toNat <<< 16) + ('s'.toNat <<< 24) +
  ('e'.toNat <<< 32) + ('q'.toNat <<< 40) + ('V'.toNat <<< 48) + ('1'.toNat <<< 56)

/-- `croppedBuckets`: the prefix of the buckets excluding those that are
solely trailing zeros (the Go loop scans from the end for the last non-zero
bucket). -/
def croppedBuckets (buckets : List Nat) : List Nat :=
  (buckets.reverse.dropWhile (fun b => b == 0)).reverse

/-- `Store.Write` as a stream of 8-byte words: the magic tag, the bucket
count, the cropped buckets, then a checksum accumulated over every
previously written word in order.  The checksum function (`ks.Checksum64`,
CRC-64/ECMA via the Go standard library) is outside this repository and is a
parameter. -/
def goWrite (checksum : Nat → Nat → Nat) (buckets : List Nat) : List Nat :=
  (magic :: (croppedBuckets buckets).length :: croppedBuckets buckets) ++
    [(magic :: (croppedBuckets buckets).length :: croppedBuckets buckets).foldl
      checksum 0]

/-- `Read`: the source body is `return ks.ErrTODO` — it is unimplemented and
fails on every input without reading the stream. -/
def goRead (words : List Nat) : Except Unit (List Nat) :=
  match words with
  | _ => .error ()

/-- C9: `Read` applied to the stream produced by `Write` never succeeds —
the deserializer is an unimplemented stub returning `ks.ErrTODO` — refuting
the claimed `Write`/`Read` round trip.  (The `Write` stream itself does have
the claimed shape: magic, bucket count, buckets, then the checksum of every
earlier word, as the second conjunct shows on a concrete store.) -/
theorem C9_read_unimplemented :
    (∀ (checksum : Nat → Nat → Nat) (buckets : List Nat),
      goRead (goWrite checksum buckets) = Except.error ()) ∧
    (∀ checksum : Nat → Nat → Nat,
      goWrite checksum [5] =
        [magic, 1, 5, checksum (checksum (checksum 0 magic) 1) 5]) := by
  constructor
  · intro checksum buckets
    rfl
  · intro checksum
    rfl

end Bitseq

namespace Sampler

/-- Axis index denoted by one character of the sampler grammar, following the
Go byte comparisons in order: digits `'0'..'9'`, then `'a'..'f'` and
`'A'..'F'` (mapped to 0..5 by the code), then the aliases x,y,z,w in either
case; `none` models the `SamplerSyntaxError` panic for any other byte. -/
def charIdx (c : Char) : Option Nat :=
  if '0'.toNat ≤ c.toNat ∧ c.toNat ≤ '9'.toNat then some (c.toNat - '0'.toNat)
  else if 'a'.toNat ≤ c.toNat ∧ c.toNat ≤ 'f'.toNat then some (c.toNat - 'a'.toNat)
  else if 'A'.toNat ≤ c.toNat ∧ c.toNat ≤ 'F'.toNat then some (c.toNat - 'A'.toNat)
  else if c.toNat = 'x'.toNat ∨ c.toNat = 'X'.toNat then some 0
  else if c.toNat = 'y'.toNat ∨ c.toNat = 'Y'.toNat then some 1
  else if c.toNat = 'z'.toNat ∨ c.toNat = 'Z'.toNat then some 2
  else if c.toNat = 'w'.toNat ∨ c.toNat = 'W'.toNat then some 3
  else none

/-- The `Sampler` parse loop.  State mirrors the Go locals: the outputs
appended so far (the 16-slot array filled left to right), the `seen` bitmask
of referenced axes, the pending `-`/`!` modifier (`none` = the sentinel
"nothing"), the count of consumed constants, and the count of non-constant
outputs.  A `none` result models a `SamplerSyntaxError` panic. -/
def parseLoop (constants : List Int) :
    List Char → List Nat → Nat → Option Char → Nat → Nat →
      Option (List Nat × Nat × Nat)
  | [], outputs, _, _, cc, nd => some (outputs, cc, nd)
  | ch :: rest, outputs, seen, precede, cc, nd =>
    if ch = '\t' ∨ ch = '\n' ∨ ch = ' ' then
      parseLoop constants rest outputs seen precede cc nd
    else if (ch = '-' ∨ ch = '!') ∧ precede = none then
      parseLoop constants rest outputs seen (some ch) cc nd
    else
      match charIdx ch with
      | none => none
      | some idx =>
        if Nat.testBit seen idx then none
        else if precede = some '!' ∧ constants.length ≤ cc then none
        else
          parseLoop constants rest
            (outputs ++ [idx ||| (if precede = some '-' then 64 else 0)
                             ||| (if precede = some '!' then 128 else 0)])
            (seen ||| (1 <<< idx))
            none
            (if precede = some '!' then cc + 1 else cc)
            (if precede = some '!' then nd else nd + 1)

/-- `Sampler(reorder, constants)`: run the parse loop from the empty state,
require at least one non-constant output, and keep only the consumed prefix
of `constants` (the Go code copies `constants[0:currentConstant]`). -/
def goSampler (reorder : List Char) (constants : List Int) :
    Option (List Nat × List Int) :=
  match parseLoop constants reorder [] 0 none 0 0 with
  | none => none
  | some (outputs, cc, nd) =>
    if nd = 0 then none else some (outputs, constants.take cc)

/-- `D.Length(i)` of the parent shape: the axis length below the declared
dimensionality, 0 beyond it. -/
def lengthAt (lengths : List Int) (i : Nat) : Int := lengths.getD i 0

/-- The offset-translation loop of the bound sampler map: walks the parsed
outputs (the Go loop over the 16-slot array stops at the first empty slot,
which is the end of the appended outputs), with `c` counting consumed
constants and `s` counting consumed source offsets.  A constant-bound
output writes its constant; otherwise the source offset (when one remains;
0 otherwise) is wrapped by the parent axis length and optionally mirrored. -/
def offsetsLoop (lengths constants source : List Int) :
    List Nat → Nat → Nat → List Int → List Int
  | [], _, _, dest => dest
  | o :: os, c, s, dest =>
    if o &&& 128 = 128 then
      offsetsLoop lengths constants source os (c + 1) s
        (dest.set (o &&& 15) (constants.getD c 0))
    else
      offsetsLoop lengths constants source os c
        (if s < source.length then s + 1 else s)
        (dest.set (o &&& 15)
          (if o &&& 64 = 64 then
            lengthAt lengths (o &&& 15) -
              (if s < source.length then
                Int.tmod (source.getD s 0) (lengthAt lengths (o &&& 15))
               else 0) - 1
           else
            (if s < source.length then
              Int.tmod (source.getD s 0) (lengthAt lengths (o &&& 15))
             else 0)))

/-- `MapOffsets` of the bound sampler map: the destination (of the parent's
dimensionality) is zeroed, then the interpretation loop runs. -/
def mapOffsets (outs : List Nat) (consts lengths source : List Int) : List Int :=
  offsetsLoop lengths consts source outs 0 0 (List.replicate lengths.length 0)

/-- The `Shapes` function of the sampler mapper: parent lengths of the
non-constant outputs, in output order. -/
def shapes (outs : List Nat) (lengths : List Int) : List Int :=
  outs.filterMap (fun o =>
    if o &&& 128 = 128 then none else some (lengthAt lengths (o &&& 15)))

/-- Constant-bound outputs in a list of parsed outputs. -/
def countConst (outs : List Nat) : Nat :=
  (outs.filter (fun o => o &&& 128 == 128)).length

/-- Non-constant (source-consuming) outputs in a list of parsed outputs. -/
def countSrc (outs : List Nat) : Nat :=
  (outs.filter (fun o => !(o &&& 128 == 128))).length

/-- The per-output value the bound map stores at the output's parent axis,
with `c`/`s` the counts of constants and source offsets consumed earlier. -/
def writeValue (lengths constants source : List Int) (o : Nat) (c s : Nat) : Int :=
  if o &&& 128 = 128 then constants.getD c 0
  else if o &&& 64 = 64 then
    lengthAt lengths (o &&& 15) -
      Int.tmod (source.getD s 0) (lengthAt lengths (o &&& 15)) - 1
  else Int.tmod (source.getD s 0) (lengthAt lengths (o &&& 15))

lemma charIdx_lt_16 {c : Char} {idx : Nat} (h : charIdx c = some idx) : idx < 16 := by
  rw [charIdx] at h
  split_ifs at h <;> simp_all <;> omega

lemma encode_and_15 {idx : Nat} (h : idx < 16) (m64 m128 : Nat)
    (h64 : m64 = 64 ∨ m64 = 0) (h128 : m128 = 128 ∨ m128 = 0) :
    (idx ||| m64 ||| m128) &&& 15 = idx := by
  rcases h64 with rfl | rfl <;> rcases h128 with rfl | rfl <;>
    interval_cases idx <;> decide

lemma encode_and_64 {idx : Nat} (h : idx < 16) (m64 m128 : Nat)
    (h64 : m64 = 64 ∨ m64 = 0) (h128 : m128 = 128 ∨ m128 = 0) :
    ((idx ||| m64 ||| m128) &&& 64 = 64 ↔ m64 = 64) := by
  rcases h64 with rfl | rfl <;> rcases h128 with rfl | rfl <;>
    interval_cases idx <;> decide

lemma encode_and_128 {idx : Nat} (h : idx < 16) (m64 m128 : Nat)
    (h64 : m64 = 64 ∨ m64 = 0) (h128 : m128 = 128 ∨ m128 = 0) :
    ((idx ||| m64 ||| m128) &&& 128 = 128 ↔ m128 = 128) := by
  rcases h64 with rfl | rfl <;> rcases h128 with rfl | rfl <;>
    interval_cases idx <;> decide

lemma countConst_cons (o : Nat) (l : List Nat) :
    countConst (o :: l) = (if o &&& 128 = 128 then 1 else 0) + countConst l := by
  by_cases h : o &&& 128 = 128 <;> (simp [countConst, List.filter_cons, h]; try omega)

lemma countSrc_cons (o : Nat) (l : List Nat) :
    countSrc (o :: l) = (if o &&& 128 = 128 then 0 else 1) + countSrc l := by
  by_cases h : o &&& 128 = 128 <;> (simp [countSrc, List.filter_cons, h]; try omega)

lemma getD_set_self {l : List Int} {i : Nat} (v : Int) (h : i < l.length) :
    (l.set i v).getD i 0 = v := by
  simp [List.getD_eq_getElem?_getD, List.getElem?_set_self h]

lemma getD_set_ne {l : List Int} {i j : Nat} (v : Int) (h : i ≠ j) :
    (l.set i v).getD j 0 = l.getD j 0 := by
  simp [List.getD_eq_getElem?_getD, List.getElem?_set_ne h]

lemma offsetsLoop_char (lengths constants source : List Int) :
    ∀ (outs : List Nat) (c s : Nat) (dest : List Int),
      List.Pairwise (fun o o' => o &&& 15 ≠ o' &&& 15) outs →
      (∀ o ∈ outs, o &&& 15 < dest.length) →
      s + countSrc outs ≤ source.length →
      ((∀ a : Nat, (∀ o ∈ outs, o &&& 15 ≠ a) →
        (offsetsLoop lengths constants source outs c s dest).getD a 0 =
          dest.getD a 0) ∧
       (∀ pre o post, outs = pre ++ o :: post →
        (offsetsLoop lengths constants source outs c s dest).getD (o &&& 15) 0 =
          writeValue lengths constants source o (c + countConst pre)
            (s + countSrc pre))) := by
  intro outs
  induction outs with
  | nil =>
    intro c s dest _ _ _
    refine ⟨fun a _ => rfl, fun pre o post heq => ?_⟩
    exact absurd heq (by simp)
  | cons o0 os ih =>
    intro c s dest hpw hlt hsrc
    rw [List.pairwise_cons] at hpw
    obtain ⟨hpw0, hpwtail⟩ := hpw
    have ha0lt : o0 &&& 15 < dest.length := hlt o0 (List.mem_cons_self _ _)
    by_cases hc : o0 &&& 128 = 128
    · -- constant-bound output
      have hstep : offsetsLoop lengths constants source (o0 :: os) c s dest =
          offsetsLoop lengths constants source os (c + 1) s
            (dest.set (o0 &&& 15) (constants.getD c 0)) := by
        rw [offsetsLoop, if_pos hc]
      have hsrc' : s + countSrc os ≤ source.length := by
        rw [countSrc_cons, if_pos hc] at hsrc
        omega
      have ihres := ih (c + 1) s (dest.set (o0 &&& 15) (constants.getD c 0))
        hpwtail
        (fun o ho => by
          rw [List.length_set]
          exact hlt o (List.mem_cons_of_mem _ ho))
        hsrc'
      constructor
      · intro a ha
        rw [hstep, ihres.1 a (fun o ho => ha o (List.mem_cons_of_mem _ ho))]
        exact getD_set_ne _ (ha o0 (List.mem_cons_self _ _))
      · intro pre o post heq
        cases pre with
        | nil =>
          simp only [List.nil_append, List.cons.injEq] at heq
          obtain ⟨rfl, rfl⟩ := heq
          rw [hstep, ihres.1 (o0 &&& 15) (fun o' ho' => (hpw0 o' ho').symm),
              getD_set_self _ ha0lt, writeValue, if_pos hc]
          simp [countConst, countSrc]
        | cons p pre2 =>
          simp only [List.cons_append, List.cons.injEq] at heq
          obtain ⟨rfl, hos⟩ := heq
          rw [hstep, ihres.2 pre2 o post hos]
          have e1 : (c + 1) + countConst pre2 = c + countConst (o0 :: pre2) := by
            rw [countConst_cons, if_pos hc]
            omega
          have e2 : s + countSrc pre2 = s + countSrc (o0 :: pre2) := by
            rw [countSrc_cons, if_pos hc]
            omega
          rw [e1, e2]
    · -- source-consuming output
      have hs' : s < source.length := by
        rw [countSrc_cons, if_neg hc] at hsrc
        omega
      have hstep : offsetsLoop lengths constants source (o0 :: os) c s dest =
          offsetsLoop lengths constants source os c (s + 1)
            (dest.set (o0 &&& 15)
              (if o0 &&& 64 = 64 then
                lengthAt lengths (o0 &&& 15) -
                  Int.tmod (source.getD s 0) (lengthAt lengths (o0 &&& 15)) - 1
               else Int.tmod (source.getD s 0) (lengthAt lengths (o0 &&& 15)))) := by
        rw [offsetsLoop, if_neg hc, if_pos hs', if_pos hs']
      have hsrc' : (s + 1) + countSrc os ≤ source.length := by
        rw [countSrc_cons, if_neg hc] at hsrc
        omega
      have ihres := ih c (s + 1)
        (dest.set (o0 &&& 15)
          (if o0 &&& 64 = 64 then
            lengthAt lengths (o0 &&& 15) -
              Int.tmod (source.getD s 0) (lengthAt lengths (o0 &&& 15)) - 1
           else Int.tmod (source.getD s 0) (lengthAt lengths (o0 &&& 15))))
        hpwtail
        (fun o ho => by
          rw [List.length_set]
          exact hlt o (List.mem_cons_of_mem _ ho))
        hsrc'
      constructor
      · intro a ha
        rw [hstep, ihres.1 a (fun o ho => ha o (List.mem_cons_of_mem _ ho))]
        exact getD_set_ne _ (ha o0 (List.mem_cons_self _ _))
      · intro pre o post heq
        cases pre with
        | nil =>
          simp only [List.nil_append, List.cons.injEq] at heq
          obtain ⟨rfl, rfl⟩ := heq
          rw [hstep, ihres.1 (o0 &&& 15) (fun o' ho' => (hpw0 o' ho').symm),
              getD_set_self _ ha0lt, writeValue, if_neg hc]
          simp [countConst, countSrc]
        | cons p pre2 =>
          simp only [List.cons_append, List.cons.injEq] at heq
          obtain ⟨rfl, hos⟩ := heq
          rw [hstep, ihres.2 pre2 o post hos]
          have e1 : c + countConst pre2 = c + countConst (o0 :: pre2) := by
            rw [countConst_cons, if_neg hc]
            omega
          have e2 : (s + 1) + countSrc pre2 = s + countSrc (o0 :: pre2) := by
            rw [countSrc_cons, if_neg hc]
            omega
          rw [e1, e2]

lemma countConst_append (l1 l2 : List Nat) :
    countConst (l1 ++ l2) = countConst l1 + countConst l2 := by
  simp [countConst, List.filter_append]

lemma countSrc_append (l1 l2 : List Nat) :
    countSrc (l1 ++ l2) = countSrc l1 + countSrc l2 := by
  simp [countSrc, List.filter_append]

lemma parseLoop_ok (constants : List Int) :
    ∀ (chars : List Char) (outputs : List Nat) (seen : Nat)
      (precede : Option Char) (cc nd : Nat) (outs : List Nat) (ccf ndf : Nat),
      parseLoop constants chars outputs seen precede cc nd =
        some (outs, ccf, ndf) →
      (∀ o ∈ outputs, Nat.testBit seen (o &&& 15) = true) →
      List.Pairwise (fun o o' => o &&& 15 ≠ o' &&& 15) outputs →
      cc = countConst outputs → nd = countSrc outputs →
      cc ≤ constants.length →
      (List.Pairwise (fun o o' => o &&& 15 ≠ o' &&& 15) outs ∧
        ccf = countConst outs ∧ ndf = countSrc outs ∧
        ccf ≤ constants.length) := by
  intro chars
  induction chars with
  | nil =>
    intro outputs seen precede cc nd outs ccf ndf hres h1 h2 h3 h4 h5
    rw [parseLoop] at hres
    simp only [Option.some.injEq, Prod.mk.injEq] at hres
    obtain ⟨rfl, rfl, rfl⟩ := hres
    exact ⟨h2, h3, h4, h5⟩
  | cons ch rest ih =>
    intro outputs seen precede cc nd outs ccf ndf hres h1 h2 h3 h4 h5
    rw [parseLoop] at hres
    by_cases hws : (ch = '\t' ∨ ch = '\n' ∨ ch = ' ')
    · rw [if_pos hws] at hres
      exact ih outputs seen precede cc nd outs ccf ndf hres h1 h2 h3 h4 h5
    · rw [if_neg hws] at hres
      by_cases hmod : ((ch = '-' ∨ ch = '!') ∧ precede = none)
      · rw [if_pos hmod] at hres
        exact ih outputs seen (some ch) cc nd outs ccf ndf hres h1 h2 h3 h4 h5
      · rw [if_neg hmod] at hres
        split at hres
        · exact absurd hres (by simp)
        next idx hcl =>
        by_cases hseen : Nat.testBit seen idx = true
        · rw [if_pos hseen] at hres
          exact absurd hres (by simp)
        rw [if_neg hseen] at hres
        by_cases hconst : (precede = some '!' ∧ constants.length ≤ cc)
        · rw [if_pos hconst] at hres
          exact absurd hres (by simp)
        rw [if_neg hconst] at hres
        · have hidx16 : idx < 16 := charIdx_lt_16 hcl
          have h64 : (if precede = some '-' then 64 else 0) = 64 ∨
              (if precede = some '-' then 64 else 0) = 0 := by
            split_ifs <;> simp
          have h128 : (if precede = some '!' then 128 else 0) = 128 ∨
              (if precede = some '!' then 128 else 0) = 0 := by
            split_ifs <;> simp
          set v : Nat := idx ||| (if precede = some '-' then 64 else 0)
            ||| (if precede = some '!' then 128 else 0) with hv
          have hv15 : v &&& 15 = idx := encode_and_15 hidx16 _ _ h64 h128
          have hv128 : (v &&& 128 = 128 ↔ precede = some '!') := by
            rw [encode_and_128 hidx16 _ _ h64 h128]
            by_cases hp : precede = some '!' <;> simp [hp]
          have hne : ∀ o ∈ outputs, o &&& 15 ≠ idx := by
            intro o ho hcontra
            rw [← hcontra] at hseen
            rw [h1 o ho] at hseen
            exact hseen rfl
          refine ih (outputs ++ [v]) (seen ||| (1 <<< idx)) none _ _ outs ccf ndf
            hres ?_ ?_ ?_ ?_ ?_
          · intro o ho
            rcases List.mem_append.mp ho with hold | hnew
            · rw [Nat.testBit_or, h1 o hold]
              rfl
            · have : o = v := by simpa using hnew
              subst this
              rw [hv15, Nat.testBit_or, Nat.shiftLeft_eq, one_mul,
                Nat.testBit_two_pow_self, Bool.or_true]
          · rw [List.pairwise_append]
            refine ⟨h2, by simp, ?_⟩
            intro a ha b hb
            have : b = v := by simpa using hb
            subst this
            rw [hv15]
            exact hne a ha
          · rw [countConst_append, ← h3, countConst_cons]
            by_cases hp : precede = some '!'
            · rw [if_pos hp, if_pos (hv128.mpr hp)]
              simp [countConst]
            · rw [if_neg hp, if_neg (fun hcon => hp (hv128.mp hcon))]
              simp [countConst]
          · rw [countSrc_append, ← h4, countSrc_cons]
            by_cases hp : precede = some '!'
            · rw [if_pos hp, if_pos (hv128.mpr hp)]
              simp [countSrc]
            · rw [if_neg hp, if_neg (fun hcon => hp (hv128.mp hcon))]
              simp [countSrc]
          · by_cases hp : precede = some '!'
            · rw [if_pos hp]
              rw [not_and_or] at hconst
              rcases hconst with hcon | hcon
              · exact absurd hp hcon
              · omega
            · rw [if_neg hp]
              exact h5

lemma goSampler_ok {reorder : List Char} {constants : List Int}
    {outs : List Nat} {consts : List Int}
    (h : goSampler reorder constants = some (outs, consts)) :
    List.Pairwise (fun o o' => o &&& 15 ≠ o' &&& 15) outs ∧
    consts = constants.take (countConst outs) ∧
    countConst outs ≤ constants.length := by
  rw [goSampler] at h
  rcases hp : parseLoop constants reorder [] 0 none 0 0 with _ | ⟨outs0, cc0, nd0⟩
  · rw [hp] at h
    exact absurd h (by simp)
  · rw [hp] at h
    have hinv := parseLoop_ok constants reorder [] 0 none 0 0 outs0 cc0 nd0 hp
      (by simp) (by simp) rfl rfl (by simp)
    obtain ⟨hpw, hcc, _, hle⟩ := hinv
    have h' : (if nd0 = 0 then (none : Option (List Nat × List Int))
        else some (outs0, constants.take cc0)) = some (outs, consts) := h
    split_ifs at h' with hnd
    cases h'
    exact ⟨hpw, by rw [hcc], hcc ▸ hle⟩

lemma getD_take {l : List Int} {k i : Nat} (h : i < k) :
    (l.take k).getD i 0 = l.getD i 0 := by
  simp [List.getD_eq_getElem?_getD, List.getElem?_take_of_lt h]

lemma getD_replicate_zero (n a : Nat) :
    (List.replicate n (0 : Int)).getD a 0 = 0 := by
  simp [List.getD_eq_getElem?_getD, List.getElem?_replicate]
  split <;> rfl

/-- C6: binding the Mapper produced by `Sampler` to a parent shape: every
non-mirrored non-constant output axis maps its source offset straight
through modulo the parent axis length; a mirrored axis maps to
`length - (offset % length) - 1`; parent axes omitted from the spec map to
offset 0; each `!`-marked axis binds the next value of the constants.
Concretely, parent shape (4,3,2) with spec "zyx" yields new shape (2,3,4),
`map_offsets([0,0,0]) = [0,0,0]` and `map_offsets([1,2,3]) = [3,2,1]`. -/
theorem C6_sampler_bind :
    (∀ (spec : List Char) (constants : List Int) (outs : List Nat)
        (consts lengths source : List Int),
      goSampler spec constants = some (outs, consts) →
      (∀ o ∈ outs, o &&& 15 < lengths.length) →
      source.length = countSrc outs →
      ((∀ pre o post, outs = pre ++ o :: post → o &&& 128 ≠ 128 → o &&& 64 ≠ 64 →
        (mapOffsets outs consts lengths source).getD (o &&& 15) 0 =
          Int.tmod (source.getD (countSrc pre) 0) (lengthAt lengths (o &&& 15))) ∧
       (∀ pre o post, outs = pre ++ o :: post → o &&& 128 ≠ 128 → o &&& 64 = 64 →
        (mapOffsets outs consts lengths source).getD (o &&& 15) 0 =
          lengthAt lengths (o &&& 15) -
            Int.tmod (source.getD (countSrc pre) 0) (lengthAt lengths (o &&& 15)) - 1) ∧
       (∀ a : Nat, (∀ o ∈ outs, o &&& 15 ≠ a) → a < lengths.length →
        (mapOffsets outs consts lengths source).getD a 0 = 0) ∧
       (∀ pre o post, outs = pre ++ o :: post → o &&& 128 = 128 →
        (mapOffsets outs consts lengths source).getD (o &&& 15) 0 =
          constants.getD (countConst pre) 0))) ∧
    (goSampler ['z', 'y', 'x'] [] = some ([2, 1, 0], []) ∧
     shapes [2, 1, 0] [4, 3, 2] = [2, 3, 4] ∧
     mapOffsets [2, 1, 0] [] [4, 3, 2] [0, 0, 0] = [0, 0, 0] ∧
     mapOffsets [2, 1, 0] [] [4, 3, 2] [1, 2, 3] = [3, 2, 1]) := by
  constructor
  · intro spec constants outs consts lengths source hparse hax hsrc
    obtain ⟨hpw, hconsts, hccle⟩ := goSampler_ok hparse
    have hchar := offsetsLoop_char lengths consts source outs 0 0
      (List.replicate lengths.length 0) hpw
      (fun o ho => by
        rw [List.length_replicate]
        exact hax o ho)
      (by omega)
    refine ⟨?_, ?_, ?_, ?_⟩
    · intro pre o post heq hnc hnm
      rw [mapOffsets, hchar.2 pre o post heq, writeValue, if_neg hnc, if_neg hnm,
        zero_add]
    · intro pre o post heq hnc hm
      rw [mapOffsets, hchar.2 pre o post heq, writeValue, if_neg hnc, if_pos hm,
        zero_add]
    · intro a ha _
      rw [mapOffsets, hchar.1 a ha, getD_replicate_zero]
    · intro pre o post heq hc
      rw [mapOffsets, hchar.2 pre o post heq, writeValue, if_pos hc, zero_add,
        hconsts]
      have hlt : countConst pre < countConst outs := by
        rw [heq, countConst_append, countConst_cons, if_pos hc]
        omega
      exact getD_take hlt
  · refine ⟨by decide, by decide, by decide, by decide⟩

/-- Witness for C6: the general characterisation instantiated on the
"zyx" example over parent shape (4,3,2), source offsets [1,2,3]: the output
for parent axis 0 (the spec's trailing `x`) is `3 % 4`. -/
theorem C6_sampler_bind_witness :
    (mapOffsets [2, 1, 0] [] [4, 3, 2] [1, 2, 3]).getD (0 &&& 15) 0 =
      Int.tmod (([1, 2, 3] : List Int).getD (countSrc [2, 1]) 0)
        (lengthAt [4, 3, 2] (0 &&& 15)) :=
  (C6_sampler_bind.1 ['z', 'y', 'x'] [] [2, 1, 0] [] [4, 3, 2] [1, 2, 3]
    (by decide) (by decide) (by decide)).1 [2, 1] 0 [] rfl (by decide) (by decide)

end Sampler

namespace Grid2

/-- `nextLength`: the per-axis growth curve of the matrix2 grid (double small
lengths, ×1.5 medium, ×1.25 large). -/
def nextLength (x : Nat) : Nat :=
  if x ≥ 12 then x + x / 4
  else if x ≥ 4 then x + x / 2
  else x + x

/-- `dimensions.Volume` of the matrix2 package: the product of the declared
axis lengths (the fixed-size `dims` array defaults unused axes to 1, so the
volume is this product at every dimensionality); also `slices.Reduce(1,
operator.Mul, lengths)` in `setSize`. -/
def volumeList (dims : List Nat) : Nat := dims.foldl (fun a b => a * b) 1

/-- The accumulator loop of matrix2 `dimensions.indexN`:
`offset += offsets[i] * stride; stride *= DimensionN(i)` — no wrapping.
The claims always supply one offset per declared axis, so the mismatched
cases (which panic or use `DimensionN = 0` in Go) do not arise. -/
def indexLoop : List Nat → List Nat → Nat → Nat
  | o :: os, d :: ds, stride => o * stride + indexLoop os ds (stride * d)
  | _, _, _ => 0

/-- `dimensions.contains` of matrix2: false as soon as an offset reaches its
axis length; an offset beyond the declared dimensionality always fails the
`offsets[i] >= DimensionN(i) = 0` test. -/
def containsN : List Nat → List Nat → Bool
  | [], _ => true
  | _ :: _, [] => false
  | o :: os, d :: ds => if o ≥ d then false else containsN os ds

/-- The `fits` computation of `setSize`: the backing dimensionality covers
the request and each requested length lies within the backing length. -/
def fitsCheck (mem lengths : List Nat) : Bool :=
  decide (lengths.length ≤ mem.length) &&
    (List.zip lengths mem).all (fun p => decide (p.1 ≤ p.2))

/-- The coordinates generated by `indexes.Forwards`, axis 0 varying fastest.
For shapes with every length ≥ 1 (a zero length is not well-defined for the
indexes package, per its package comment) this is the odometer's output. -/
def allCoords : List Nat → List (List Nat)
  | [] => [[]]
  | d :: ds => (allCoords ds).flatMap (fun c => (List.range d).map (fun x => x :: c))

/-- Structural (head/tail) form of the index accumulator. -/
def natMixed : List Nat → List Nat → Nat
  | o :: os, d :: ds => o + d * natMixed os ds
  | _, _ => 0

lemma volumeList_eq_prod (ds : List Nat) : volumeList ds = ds.prod := by
  rw [volumeList, List.prod_eq_foldl]

lemma volumeList_cons (d : Nat) (ds : List Nat) :
    volumeList (d :: ds) = d * volumeList ds := by
  simp [volumeList_eq_prod]

lemma volumeList_pos {ds : List Nat} (h : ∀ d ∈ ds, 1 ≤ d) :
    1 ≤ volumeList ds := by
  rw [volumeList_eq_prod]
  induction ds with
  | nil => simp
  | cons d ds ih =>
    rw [List.prod_cons]
    have h1 := h d (by simp)
    have h2 := ih (fun x hx => h x (by simp [hx]))
    calc 1 = 1 * 1 := by omega
      _ ≤ d * ds.prod := Nat.mul_le_mul h1 h2

lemma indexLoop_eq (os : List Nat) :
    ∀ (ds : List Nat) (s : Nat), indexLoop os ds s = s * natMixed os ds := by
  induction os with
  | nil => intro ds s; cases ds <;> simp [indexLoop, natMixed]
  | cons o os ih =>
    intro ds s
    cases ds with
    | nil => simp [indexLoop, natMixed]
    | cons d ds =>
      simp only [indexLoop, natMixed, ih]
      ring

lemma natMixed_lt : ∀ {c dims : List Nat},
    List.Forall₂ (· < ·) c dims → natMixed c dims < volumeList dims := by
  intro c dims h
  induction h with
  | nil => simp [natMixed, volumeList]
  | @cons o d os ds ho _ ih =>
    simp only [natMixed, volumeList_cons]
    calc o + d * natMixed os ds < d + d * natMixed os ds := by omega
      _ = d * (natMixed os ds + 1) := by ring
      _ ≤ d * volumeList ds := Nat.mul_le_mul_left d (by omega)

lemma natMixed_inj : ∀ {dims c c' : List Nat},
    List.Forall₂ (· < ·) c dims → List.Forall₂ (· < ·) c' dims →
    natMixed c dims = natMixed c' dims → c = c' := by
  intro dims
  induction dims with
  | nil =>
    intro c c' h h' _
    cases h
    cases h'
    rfl
  | cons d ds ih =>
    intro c c' h h' heq
    rcases h with _ | ⟨ho, hos⟩
    rcases h' with _ | ⟨ho', hos'⟩
    rename_i o os o' os'
    simp only [natMixed] at heq
    have hd : 0 < d := by omega
    have h1 : o = o' := by
      have e1 : (o + d * natMixed os ds) % d = o := by
        rw [Nat.add_mul_mod_self_left, Nat.mod_eq_of_lt ho]
      have e2 : (o' + d * natMixed os' ds) % d = o' := by
        rw [Nat.add_mul_mod_self_left, Nat.mod_eq_of_lt ho']
      rw [← e1, ← e2, heq]
    have h2 : natMixed os ds = natMixed os' ds := by
      have e1 : (o + d * natMixed os ds) / d = natMixed os ds := by
        rw [Nat.add_mul_div_left _ _ hd, Nat.div_eq_of_lt ho]
        omega
      have e2 : (o' + d * natMixed os' ds) / d = natMixed os' ds := by
        rw [Nat.add_mul_div_left _ _ hd, Nat.div_eq_of_lt ho']
        omega
      rw [← e1, ← e2, heq]
    rw [h1, ih hos hos' h2]

lemma mem_allCoords : ∀ {dims c : List Nat},
    c ∈ allCoords dims ↔ List.Forall₂ (· < ·) c dims := by
  intro dims
  induction dims with
  | nil =>
    intro c
    simp only [allCoords, List.mem_singleton]
    constructor
    · rintro rfl
      exact .nil
    · intro h
      cases h
      rfl
  | cons d ds ih =>
    intro c
    simp only [allCoords, List.mem_flatMap, List.mem_map, List.mem_range]
    constructor
    · rintro ⟨c', hc', x, hx, rfl⟩
      exact .cons hx (ih.mp hc')
    · intro h
      rcases h with _ | ⟨hx, hcs⟩
      rename_i x cs
      exact ⟨cs, ih.mpr hcs, x, hx, rfl⟩

lemma allCoords_nodup : ∀ (dims : List Nat), (allCoords dims).Nodup := by
  intro dims
  induction dims with
  | nil => simp [allCoords]
  | cons d ds ih =>
    rw [allCoords]
    apply List.nodup_flatMap.mpr
    constructor
    · intro c _
      apply List.Nodup.map
      · intro a b hab
        simpa using hab
      · exact List.nodup_range d
    · refine List.Pairwise.imp ?_ ih
      intro c c' hne
      simp only [Function.onFun]
      intro a ha hb
      simp only [List.mem_map, List.mem_range] at ha hb
      obtain ⟨x, _, rfl⟩ := ha
      obtain ⟨y, _, hy⟩ := hb
      cases hy
      exact hne rfl

/-- The matrix2 grid: logical dimensions, backing dimensions, and backing
values.  In the modelled paths the Go slice always has `len == cap`, and an
empty values list models the nil slice of a fresh grid. -/
structure GridM (T : Type) where
  dims : List Nat
  mem : List Nat
  values : List T

/-- `grid.GetN`: `values[mem.indexN(offsets...)]`; `none` models the panic
on an out-of-range access. -/
def gridGetN {T : Type} (g : GridM T) (c : List Nat) : Option T :=
  g.values[indexLoop c g.mem 1]?

/-- `gridMove`: for every coordinate of the source's logical shape (in
`indexes.Forwards` order), if `destDims` contains it, store the source value
at its index in the `destDims` layout.  The `must.Truef` bound assertion in
the Go code is a panic; the lemmas prove every write in range. -/
def gridMove {T : Type} (zero : T) (g : GridM T) (dest : List T)
    (destDims : List Nat) : List T :=
  (allCoords g.dims).foldl
    (fun d c =>
      if containsN c destDims then
        d.set (indexLoop c destDims 1) ((gridGetN g c).getD zero)
      else d)
    dest

/-- `grid.setSize`.  `makeCopy = true` is the `Resize*` path; `false` is
`SetSize*`.  The Go branches in order: nil backing slice; requested volume
exceeding capacity (reserve a grown backing shape and copy); otherwise
rearrange in place (`clear` + `copy` of the moved buffer, cropping the
buffer to the existing capacity), updating the backing shape only when the
request did not fit it. -/
def gridSetSize {T : Type} (zero : T) (makeCopy : Bool) (lengths : List Nat)
    (g : GridM T) : GridM T :=
  if g.values.isEmpty then
    ⟨lengths, lengths, List.replicate (volumeList lengths) zero⟩
  else if volumeList lengths > g.values.length then
    ⟨lengths, lengths.map nextLength,
      if makeCopy then
        gridMove zero g (List.replicate (volumeList (lengths.map nextLength)) zero)
          (lengths.map nextLength)
      else List.replicate (volumeList (lengths.map nextLength)) zero⟩
  else if makeCopy then
    if fitsCheck g.mem lengths then
      ⟨lengths, g.mem,
        (gridMove zero g (List.replicate (volumeList g.mem) zero) g.mem).take
            g.values.length ++
          List.replicate (g.values.length -
            (gridMove zero g (List.replicate (volumeList g.mem) zero) g.mem).length)
            zero⟩
    else
      ⟨lengths, lengths,
        (gridMove zero g (List.replicate (volumeList lengths) zero) lengths).take
            g.values.length ++
          List.replicate (g.values.length -
            (gridMove zero g (List.replicate (volumeList lengths) zero) lengths).length)
            zero⟩
  else
    ⟨lengths, if fitsCheck g.mem lengths then g.mem else lengths,
      List.replicate g.values.length zero⟩

/-- A sequence of `Resize` calls. -/
def resizeSeq {T : Type} (zero : T) (g : GridM T) (shapes : List (List Nat)) :
    GridM T :=
  shapes.foldl (fun g L => gridSetSize zero true L g) g

/-- Well-formedness of a grid state: logical and backing shapes have the
same dimensionality, the backing shape dominates the logical one, logical
lengths are positive, and the backing volume fits in the values slice. -/
def Inv {T : Type} (g : GridM T) : Prop :=
  g.dims.length = g.mem.length ∧
  List.Forall₂ (· ≤ ·) g.dims g.mem ∧
  (∀ d ∈ g.dims, 1 ≤ d) ∧
  volumeList g.mem ≤ g.values.length

lemma nextLength_ge (x : Nat) : x ≤ nextLength x := by
  rw [nextLength]
  split_ifs <;> omega

lemma forall₂_le_refl (l : List Nat) : List.Forall₂ (· ≤ ·) l l := by
  induction l with
  | nil => exact .nil
  | cons x xs ih => exact .cons le_rfl ih

lemma forall₂_le_map_nextLength (l : List Nat) :
    List.Forall₂ (· ≤ ·) l (l.map nextLength) := by
  induction l with
  | nil => exact .nil
  | cons x xs ih => exact .cons (nextLength_ge x) ih

lemma forall₂_le_trans : ∀ {a b c : List Nat},
    List.Forall₂ (· ≤ ·) a b → List.Forall₂ (· ≤ ·) b c →
    List.Forall₂ (· ≤ ·) a c := by
  intro a b c h1 h2
  induction h1 generalizing c with
  | nil =>
    cases h2
    exact .nil
  | cons hxy _ ih =>
    rcases h2 with _ | ⟨hyz, h2'⟩
    exact .cons (le_trans hxy hyz) (ih h2')

lemma forall₂_lt_of_lt_le : ∀ {c a b : List Nat},
    List.Forall₂ (· < ·) c a → List.Forall₂ (· ≤ ·) a b →
    List.Forall₂ (· < ·) c b := by
  intro c a b h1 h2
  induction h1 generalizing b with
  | nil =>
    cases h2
    exact .nil
  | cons hxy _ ih =>
    rcases h2 with _ | ⟨hyz, h2'⟩
    exact .cons (lt_of_lt_of_le hxy hyz) (ih h2')

lemma pos_of_le {a b : List Nat} (h : List.Forall₂ (· ≤ ·) a b)
    (ha : ∀ x ∈ a, 1 ≤ x) : ∀ y ∈ b, 1 ≤ y := by
  induction h with
  | nil => simp
  | @cons x y xs ys hxy _ ih =>
    intro z hz
    rcases List.mem_cons.mp hz with rfl | hz'
    · exact le_trans (ha x (by simp)) hxy
    · exact ih (fun w hw => ha w (by simp [hw])) z hz'

lemma volumeList_mono : ∀ {a b : List Nat},
    List.Forall₂ (· ≤ ·) a b → volumeList a ≤ volumeList b := by
  intro a b h
  induction h with
  | nil => exact le_refl _
  | @cons x y xs ys hxy _ ih =>
    rw [volumeList_cons, volumeList_cons]
    exact Nat.mul_le_mul hxy ih

lemma containsN_of_lt_le : ∀ {c a b : List Nat},
    List.Forall₂ (· < ·) c a → List.Forall₂ (· ≤ ·) a b →
    containsN c b = true := by
  intro c a b h1 h2
  induction h1 generalizing b with
  | nil =>
    cases h2
    rfl
  | @cons o d os ds ho _ ih =>
    rcases h2 with _ | ⟨hde, h2'⟩
    rename_i e es
    rw [containsN, if_neg (by omega)]
    exact ih h2'

lemma fitsCheck_true_iff {mem lengths : List Nat}
    (hlen : lengths.length = mem.length) :
    fitsCheck mem lengths = true ↔ List.Forall₂ (· ≤ ·) lengths mem := by
  rw [fitsCheck, List.forall₂_iff_zip]
  simp only [Bool.and_eq_true, decide_eq_true_eq, List.all_eq_true]
  constructor
  · rintro ⟨-, hall⟩
    exact ⟨hlen, fun {a b} hab => hall (a, b) hab⟩
  · rintro ⟨-, hall⟩
    exact ⟨by omega, fun p hp => hall hp⟩

lemma foldl_ite_of_all {α β : Type} (p : α → Bool) (f : β → α → β) :
    ∀ (l : List α) (acc : β), (∀ x ∈ l, p x = true) →
      l.foldl (fun d x => if p x then f d x else d) acc = l.foldl f acc := by
  intro l
  induction l with
  | nil => intro acc _; rfl
  | cons x xs ih =>
    intro acc h
    rw [List.foldl_cons, List.foldl_cons, if_pos (h x (by simp)),
      ih (f acc x) (fun y hy => h y (by simp [hy]))]

lemma foldl_set_length {T : Type} (f : List Nat → T) (key : List Nat → Nat) :
    ∀ (coords : List (List Nat)) (dest : List T),
      (coords.foldl (fun d x => d.set (key x) (f x)) dest).length =
        dest.length := by
  intro coords
  induction coords with
  | nil => intro dest; rfl
  | cons c cs ih =>
    intro dest
    rw [List.foldl_cons, ih, List.length_set]

lemma foldl_set_getElem?_of_ne {T : Type} (f : List Nat → T) (key : List Nat → Nat) :
    ∀ (coords : List (List Nat)) (dest : List T) (k : Nat),
      (∀ c ∈ coords, key c ≠ k) →
      (coords.foldl (fun d x => d.set (key x) (f x)) dest)[k]? = dest[k]? := by
  intro coords
  induction coords with
  | nil => intro dest k _; rfl
  | cons c cs ih =>
    intro dest k h
    rw [List.foldl_cons, ih (dest.set (key c) (f c)) k
      (fun y hy => h y (by simp [hy])),
      List.getElem?_set_ne (h c (by simp))]

lemma foldl_set_getElem?_mem {T : Type} (f : List Nat → T) (key : List Nat → Nat) :
    ∀ (coords : List (List Nat)) (dest : List T) (c : List Nat),
      c ∈ coords →
      List.Pairwise (fun a b => key a ≠ key b) coords →
      key c < dest.length →
      (coords.foldl (fun d x => d.set (key x) (f x)) dest)[key c]? =
        some (f c) := by
  intro coords
  induction coords with
  | nil =>
    intro dest c hc
    exact absurd hc (by simp)
  | cons c0 cs ih =>
    intro dest c hc hpw hk
    rw [List.pairwise_cons] at hpw
    obtain ⟨hpw0, hpwtail⟩ := hpw
    rcases List.mem_cons.mp hc with rfl | hmem
    · rw [List.foldl_cons,
        foldl_set_getElem?_of_ne f key cs (dest.set (key c) (f c)) (key c)
          (fun b hb => (hpw0 b hb).symm),
        List.getElem?_set_self hk]
    · rw [List.foldl_cons]
      exact ih (dest.set (key c0) (f c0)) c hmem hpwtail
        (by rw [List.length_set]; exact hk)

lemma gridGetN_isSome {T : Type} {g : GridM T} {c : List Nat}
    (hle : List.Forall₂ (· ≤ ·) g.dims g.mem)
    (hvol : volumeList g.mem ≤ g.values.length)
    (hc : List.Forall₂ (· < ·) c g.dims) :
    ∃ v, gridGetN g c = some v := by
  have hidx : indexLoop c g.mem 1 < g.values.length := by
    rw [indexLoop_eq, one_mul]
    exact lt_of_lt_of_le (natMixed_lt (forall₂_lt_of_lt_le hc hle)) hvol
  exact ⟨_, List.getElem?_eq_getElem hidx⟩

lemma gridMove_length {T : Type} (zero : T) (g : GridM T) (dest : List T)
    (destDims : List Nat) : (gridMove zero g dest destDims).length = dest.length := by
  rw [gridMove]
  generalize allCoords g.dims = coords
  induction coords generalizing dest with
  | nil => rfl
  | cons c cs ih =>
    rw [List.foldl_cons]
    split_ifs with h
    · rw [ih, List.length_set]
    · rw [ih]

lemma gridMove_getElem? {T : Type} (zero : T) (g : GridM T) (dest : List T)
    (destDims : List Nat)
    (hle : List.Forall₂ (· ≤ ·) g.dims destDims)
    (hdest : volumeList destDims ≤ dest.length)
    (c : List Nat) (hc : List.Forall₂ (· < ·) c g.dims) :
    (gridMove zero g dest destDims)[indexLoop c destDims 1]? =
      some ((gridGetN g c).getD zero) := by
  rw [gridMove, foldl_ite_of_all _ _ _ _
      (fun x hx => containsN_of_lt_le (mem_allCoords.mp hx) hle)]
  apply foldl_set_getElem?_mem
  · exact mem_allCoords.mpr hc
  · refine List.Pairwise.imp_of_mem ?_ (allCoords_nodup g.dims)
    intro a b ha hb hne hkey
    apply hne
    rw [indexLoop_eq, indexLoop_eq, one_mul, one_mul] at hkey
    exact natMixed_inj
      (forall₂_lt_of_lt_le (mem_allCoords.mp ha) hle)
      (forall₂_lt_of_lt_le (mem_allCoords.mp hb) hle) hkey
  · rw [indexLoop_eq, one_mul]
    exact lt_of_lt_of_le (natMixed_lt (forall₂_lt_of_lt_le hc hle)) hdest

lemma gridSetSize_step {T : Type} (zero : T) (g : GridM T) (lengths : List Nat)
    (hInv : Inv g) (hlen : lengths.length = g.dims.length)
    (hmono : List.Forall₂ (· ≤ ·) g.dims lengths) :
    Inv (gridSetSize zero true lengths g) ∧
    (gridSetSize zero true lengths g).dims = lengths ∧
    ∀ c : List Nat, List.Forall₂ (· < ·) c g.dims →
      gridGetN (gridSetSize zero true lengths g) c = gridGetN g c := by
  obtain ⟨hdl, hdm, hpos, hvol⟩ := hInv
  have hposL : ∀ d ∈ lengths, 1 ≤ d := pos_of_le hmono hpos
  have hvolpos : 1 ≤ volumeList g.mem := volumeList_pos (pos_of_le hdm hpos)
  have hne : ¬(g.values.isEmpty = true) := by
    intro hemp
    rw [List.isEmpty_iff] at hemp
    rw [hemp] at hvol
    simp only [List.length_nil] at hvol
    omega
  rw [gridSetSize, if_neg hne]
  by_cases hgrow : volumeList lengths > g.values.length
  · rw [if_pos hgrow, if_pos rfl]
    refine ⟨⟨?_, ?_, ?_, ?_⟩, rfl, ?_⟩
    · show lengths.length = (lengths.map nextLength).length
      rw [List.length_map]
    · exact forall₂_le_map_nextLength lengths
    · exact hposL
    · show volumeList (lengths.map nextLength) ≤
        (gridMove zero g
          (List.replicate (volumeList (lengths.map nextLength)) zero)
          (lengths.map nextLength)).length
      rw [gridMove_length, List.length_replicate]
    · intro c hc
      show (gridMove zero g
          (List.replicate (volumeList (lengths.map nextLength)) zero)
          (lengths.map nextLength))[indexLoop c (lengths.map nextLength) 1]? =
        gridGetN g c
      rw [gridMove_getElem? zero g _ (lengths.map nextLength)
        (forall₂_le_trans hmono (forall₂_le_map_nextLength lengths))
        (by rw [List.length_replicate]) c hc]
      obtain ⟨v, hv⟩ := gridGetN_isSome hdm hvol hc
      rw [hv]
      rfl
  · rw [if_neg hgrow, if_pos rfl]
    by_cases hfits : fitsCheck g.mem lengths = true
    · rw [if_pos hfits]
      have hLm : List.Forall₂ (· ≤ ·) lengths g.mem :=
        (fitsCheck_true_iff (by omega)).mp hfits
      have hMlen : (gridMove zero g (List.replicate (volumeList g.mem) zero)
          g.mem).length = volumeList g.mem := by
        rw [gridMove_length, List.length_replicate]
      have htake : (gridMove zero g (List.replicate (volumeList g.mem) zero)
          g.mem).take g.values.length =
          gridMove zero g (List.replicate (volumeList g.mem) zero) g.mem :=
        List.take_of_length_le (by omega)
      refine ⟨⟨?_, hLm, hposL, ?_⟩, rfl, ?_⟩
      · show lengths.length = g.mem.length
        omega
      · show volumeList g.mem ≤
          ((gridMove zero g (List.replicate (volumeList g.mem) zero)
              g.mem).take g.values.length ++
            List.replicate (g.values.length -
              (gridMove zero g (List.replicate (volumeList g.mem) zero)
                g.mem).length) zero).length
        simp only [List.length_append, List.length_take, List.length_replicate]
        omega
      · intro c hc
        show ((gridMove zero g (List.replicate (volumeList g.mem) zero)
              g.mem).take g.values.length ++
            List.replicate (g.values.length -
              (gridMove zero g (List.replicate (volumeList g.mem) zero)
                g.mem).length) zero)[indexLoop c g.mem 1]? = gridGetN g c
        rw [htake]
        have hkey : indexLoop c g.mem 1 <
            (gridMove zero g (List.replicate (volumeList g.mem) zero)
              g.mem).length := by
          rw [hMlen, indexLoop_eq, one_mul]
          exact natMixed_lt (forall₂_lt_of_lt_le hc hdm)
        rw [List.getElem?_append_left hkey,
          gridMove_getElem? zero g _ g.mem hdm (by rw [List.length_replicate]) c hc]
        obtain ⟨v, hv⟩ := gridGetN_isSome hdm hvol hc
        rw [hv]
        rfl
    · rw [if_neg hfits]
      have hle' : volumeList lengths ≤ g.values.length := by omega
      have hMlen : (gridMove zero g (List.replicate (volumeList lengths) zero)
          lengths).length = volumeList lengths := by
        rw [gridMove_length, List.length_replicate]
      have htake : (gridMove zero g (List.replicate (volumeList lengths) zero)
          lengths).take g.values.length =
          gridMove zero g (List.replicate (volumeList lengths) zero) lengths :=
        List.take_of_length_le (by omega)
      refine ⟨⟨rfl, forall₂_le_refl lengths, hposL, ?_⟩, rfl, ?_⟩
      · show volumeList lengths ≤
          ((gridMove zero g (List.replicate (volumeList lengths) zero)
              lengths).take g.values.length ++
            List.replicate (g.values.length -
              (gridMove zero g (List.replicate (volumeList lengths) zero)
                lengths).length) zero).length
        simp only [List.length_append, List.length_take, List.length_replicate]
        omega
      · intro c hc
        show ((gridMove zero g (List.replicate (volumeList lengths) zero)
              lengths).take g.values.length ++
            List.replicate (g.values.length -
              (gridMove zero g (List.replicate (volumeList lengths) zero)
                lengths).length) zero)[indexLoop c lengths 1]? = gridGetN g c
        rw [htake]
        have hkey : indexLoop c lengths 1 <
            (gridMove zero g (List.replicate (volumeList lengths) zero)
              lengths).length := by
          rw [hMlen, indexLoop_eq, one_mul]
          exact natMixed_lt (forall₂_lt_of_lt_le hc hmono)
        rw [List.getElem?_append_left hkey,
          gridMove_getElem? zero g _ lengths hmono
            (by rw [List.length_replicate]) c hc]
        obtain ⟨v, hv⟩ := gridGetN_isSome hdm hvol hc
        rw [hv]
        rfl

/-- C8: growth never loses values.  Starting from any well-formed grid state
and any sequence of `Resize` requests whose shapes are coordinate-wise
non-decreasing (each keeping the grid's dimensionality), every coordinate
inside the original logical shape reads back the same value after the whole
sequence, across both the reallocating and the in-place branches of
`setSize`. -/
theorem C8_grid_growth {T : Type} (zero : T) (g : GridM T)
    (shapes : List (List Nat)) (hInv : Inv g)
    (hchain : List.Chain
      (fun a b => b.length = a.length ∧ List.Forall₂ (· ≤ ·) a b)
      g.dims shapes)
    (c : List Nat) (hc : List.Forall₂ (· < ·) c g.dims) :
    gridGetN (resizeSeq zero g shapes) c = gridGetN g c := by
  induction shapes generalizing g with
  | nil => rfl
  | cons L rest ih =>
    rcases hchain with _ | ⟨⟨hLlen, hLle⟩, hchain'⟩
    obtain ⟨hInv', hdims', hpres⟩ := gridSetSize_step zero g L hInv hLlen hLle
    have hstep : resizeSeq zero g (L :: rest) =
        resizeSeq zero (gridSetSize zero true L g) rest := rfl
    rw [hstep, ih (gridSetSize zero true L g) hInv'
      (by rw [hdims']; exact hchain')
      (by rw [hdims']; exact forall₂_lt_of_lt_le hc hLle)]
    exact hpres c hc

theorem C8_grid_growth_witness :
    gridGetN (resizeSeq (0 : Int) ⟨[2], [2], [7, 9]⟩ [[3], [4]]) [1] =
        gridGetN (⟨[2], [2], [7, 9]⟩ : GridM Int) [1] ∧
      gridGetN (⟨[2], [2], [7, 9]⟩ : GridM Int) [1] = some 9 :=
  ⟨C8_grid_growth 0 ⟨[2], [2], [7, 9]⟩ [[3], [4]]
      ⟨rfl, .cons (by omega) .nil, by decide, by decide⟩
      (.cons ⟨rfl, .cons (by omega) .nil⟩
        (.cons ⟨rfl, .cons (by omega) .nil⟩ .nil))
      [1] (.cons (by omega) .nil),
    rfl⟩

end Grid2
